import Mathlib

/-!
Verification development for the TheWebsite repository: a shallow embedding of
the client-side template engine (`templates.js`, `js/templates.js`) and the
blog content router (`blog.js`, shipped inside `deploy.sh`), together with
proofs settling the frozen specification claims.

Strings are processed through their underlying character lists; the browser
DOM is modelled as a tree of nodes, and the network is modelled as a pure
function from resource names to optional response bodies (a stable resource,
matching the claims' provisos).
-/

namespace TW

/-- Characters matched by the JavaScript regex class `\w`. -/
def isWordChar (c : Char) : Bool := c.isAlphanum || c = '_'

/-- Predicate `startsWithL pat l` is true when `pat` is an initial segment of `l`. -/
def startsWithL : List Char → List Char → Bool
  | [], _ => true
  | _ :: _, [] => false
  | p :: ps, c :: cs => p == c && startsWithL ps cs

/-- Index of the first occurrence of `pat` inside `l`, scanning left to right
(the search JavaScript `String.prototype.replace` performs for a string
pattern). -/
def findSub (pat : List Char) : List Char → Option Nat
  | [] => if startsWithL pat [] then some 0 else none
  | c :: t => if startsWithL pat (c :: t) then some 0 else (findSub pat t).map (· + 1)

/-- Whether the string `pat` occurs as a contiguous substring of `s`. -/
def occursS (pat s : String) : Bool := (findSub pat.data s.data).isSome

/-- The backquote character, used by the `$`-patterns of JavaScript
`String.prototype.replace`. -/
def backquoteChar : Char := Char.ofNat 96

/-- The single-quote character. -/
def squoteChar : Char := Char.ofNat 39

/-- Expansion of the replacement string of JavaScript
`String.prototype.replace` when the pattern is a plain string: `$$` yields a
dollar sign, `$&` the matched text, a dollar followed by a backquote the text
before the match, a dollar followed by a quote the text after the match, and
any other `$` sequence is kept literally (there are no capture groups for a
string pattern). -/
def expandRepl (matched pre suf : List Char) : List Char → List Char
  | [] => []
  | c :: rest =>
    if c = '$' then
      match rest with
      | [] => ['$']
      | d :: r =>
        if d = '$' then '$' :: expandRepl matched pre suf r
        else if d = '&' then matched ++ expandRepl matched pre suf r
        else if d = backquoteChar then pre ++ expandRepl matched pre suf r
        else if d = squoteChar then suf ++ expandRepl matched pre suf r
        else '$' :: expandRepl matched pre suf (d :: r)
    else c :: expandRepl matched pre suf rest

/-- JavaScript `s.replace(pat, repl)` with string arguments: replaces the
first occurrence of `pat` in `s` (if any) with the `$`-expanded replacement. -/
def jsReplace (s pat repl : String) : String :=
  match findSub pat.data s.data with
  | none => s
  | some i =>
    let pre := s.data.take i
    let suf := s.data.drop (i + pat.data.length)
    ⟨pre ++ expandRepl pat.data pre suf repl.data ++ suf⟩

/-- Replacement of the first occurrence of `pat` by `repl` taken literally.
This follows the specification's words ("substitute the variable into the
first textual occurrence of the placeholder token"); it is compared with the
source-level `jsReplace` in the claims about layout substitution. -/
def firstSubst (s pat repl : String) : String :=
  match findSub pat.data s.data with
  | none => s
  | some i => ⟨s.data.take i ++ repl.data ++ s.data.drop (i + pat.data.length)⟩

/-- Check that `repl` contains no dollar character, so its `$`-expansion is itself. -/
def noDollar (s : String) : Bool := s.data.all (· ≠ '$')

/-- Global replacement of every occurrence of `pat` (a plain string) by
`repl`, scanning left to right and resuming after each replacement: the
behaviour of JavaScript `s.replace(/pat/g, repl)` for a `$`-free literal
replacement. -/
def replaceAllAux (pat repl : List Char) : Nat → List Char → List Char
  | _, [] => []
  | 0, l => l
  | fuel + 1, c :: t =>
    if startsWithL pat (c :: t) ∧ pat ≠ [] then
      repl ++ replaceAllAux pat repl fuel ((c :: t).drop pat.length)
    else
      c :: replaceAllAux pat repl fuel t

/-- Entry point of the global replacement: one fuel unit per character is
enough, a replacement step always consumes at least one character. -/
def replaceAllSub (pat repl l : List Char) : List Char :=
  replaceAllAux pat repl l.length l

/-- The layout placeholder token for the page title. -/
def titleTok : String := "\x7b\x7btitle\x7d\x7d"

/-- The layout placeholder token for extra head content. -/
def headTok : String := "\x7b\x7bhead\x7d\x7d"

/-- The layout placeholder token for the page content. -/
def contentTok : String := "\x7b\x7bcontent\x7d\x7d"

/-- The layout placeholder token for extra scripts. -/
def scriptsTok : String := "\x7b\x7bscripts\x7d\x7d"

/-- Reading `getAttribute('data-…') || default`: an absent attribute reads as `null`
and an empty string is falsy, so both fall back to the default. -/
def attrOr (a : Option String) (d : String) : String :=
  match a with
  | none => d
  | some s => if s = "" then d else s

/-- The variable-substitution core of `renderLayoutTemplate`
(`templates.js` lines 37-61): reads `title`, `head`, `scripts` from the
data attributes with their defaults, then chains the four JavaScript
`replace` calls over the fetched layout text. `content` is the insertion
point's captured inner content. -/
def renderLayoutFor (dataTitle dataHead dataScripts : Option String)
    (content template : String) : String :=
  let title := attrOr dataTitle "Page"
  let head := attrOr dataHead ""
  let scripts := attrOr dataScripts ""
  jsReplace (jsReplace (jsReplace (jsReplace template titleTok title) headTok head)
    contentTok content) scriptsTok scripts

/-- The markdown conversion wrapper (`blog.js` / `deploy.sh` lines 358-377):
when the external `marked` library is available it delegates to it (its
configuration is the collaborator's concern); otherwise it falls back to the
raw text wrapped in a preformatted block. -/
def markdownToHtml (markedAvailable : Bool) (markedParse : String → String)
    (markdown : String) : String :=
  if markedAvailable then markedParse markdown
  else "<pre>" ++ markdown ++ "</pre>"

/-! ## Blog router: article dates and the index view (`blog.js` in `deploy.sh`) -/

/-- A calendar instant with millisecond precision, the data carried by the
`YYYY-MM-DDTHH:mm:ss.sssZ` prefix of an article filename and by the
JavaScript `Date` values the router compares. -/
structure DT where
  year : Nat
  month : Nat
  day : Nat
  hour : Nat
  minute : Nat
  second : Nat
  ms : Nat
deriving DecidableEq, Repr

/-- Gregorian leap year. -/
def isLeap (y : Nat) : Bool := (y % 4 == 0 && y % 100 != 0) || y % 400 == 0

/-- Number of days of month `m` (1-12) of year `y`. -/
def daysInMonth (y m : Nat) : Nat :=
  if m = 2 then (if isLeap y then 29 else 28)
  else if m = 4 ∨ m = 6 ∨ m = 9 ∨ m = 11 then 30
  else 31

/-- A numeric key strictly monotone in the lexicographic order of the fields
for in-range dates; two valid instants compare through their keys exactly as
the corresponding JavaScript `Date` values compare numerically. -/
def dtKey (d : DT) : Nat :=
  (((((d.year * 13 + d.month) * 32 + d.day) * 24 + d.hour) * 60 + d.minute) * 60
    + d.second) * 1000 + d.ms

/-- The cutoff `threeMonthsAgo` of `getAvailableArticles` (`deploy.sh` lines 455-456):
`new Date()` followed by `setMonth(getMonth() - 3)`. The month is moved back
three, borrowing from the year, and a day-of-month beyond the target month's
length rolls over into the following month, as JavaScript `setMonth` does. -/
def threeMonthsBefore (now : DT) : DT :=
  let m0 := now.month + 8
  let y1 := now.year - 1 + m0 / 12
  let m1 := m0 % 12 + 1
  if now.day > daysInMonth y1 m1 then
    let d2 := now.day - daysInMonth y1 m1
    if m1 = 12 then ⟨y1 + 1, 1, d2, now.hour, now.minute, now.second, now.ms⟩
    else ⟨y1, m1 + 1, d2, now.hour, now.minute, now.second, now.ms⟩
  else ⟨y1, m1, now.day, now.hour, now.minute, now.second, now.ms⟩

/-- Numeric value of a decimal digit character. -/
def dVal (c : Char) : Nat := c.toNat - 48

/-- The anchored pattern `^\d{4}-\d{2}-\d{2}T\d{2}:\d{2}:\d{2}\.\d{3}Z`:
on success, the parsed instant and the characters following the 24-character
match. -/
def isoMatch : List Char → Option (DT × List Char)
  | y1 :: y2 :: y3 :: y4 :: '-' :: m1 :: m2 :: '-' :: d1 :: d2 :: 'T' ::
    h1 :: h2 :: ':' :: i1 :: i2 :: ':' :: s1 :: s2 :: '.' ::
    f1 :: f2 :: f3 :: 'Z' :: rest =>
    if y1.isDigit && y2.isDigit && y3.isDigit && y4.isDigit &&
       m1.isDigit && m2.isDigit && d1.isDigit && d2.isDigit &&
       h1.isDigit && h2.isDigit && i1.isDigit && i2.isDigit &&
       s1.isDigit && s2.isDigit && f1.isDigit && f2.isDigit && f3.isDigit then
      some (⟨((dVal y1 * 10 + dVal y2) * 10 + dVal y3) * 10 + dVal y4,
             dVal m1 * 10 + dVal m2,
             dVal d1 * 10 + dVal d2,
             dVal h1 * 10 + dVal h2,
             dVal i1 * 10 + dVal i2,
             dVal s1 * 10 + dVal s2,
             (dVal f1 * 10 + dVal f2) * 10 + dVal f3⟩, rest)
    else none
  | _ => none

/-- Source function `parseIsoDateTimeFromFilename` (`deploy.sh` lines 515-522): the matched
instant text when the filename begins with the exact
`YYYY-MM-DDTHH:mm:ss.sssZ` pattern, `null` (here `none`) otherwise. -/
def parseIsoDateTimeFromFilename (filename : String) : Option String :=
  match isoMatch filename.data with
  | some _ => some ⟨filename.data.take 24⟩
  | none => none

/-- The instant denoted by a string produced by
`parseIsoDateTimeFromFilename` (the `new Date(isoDateTime)` step). Only ever
applied to strings that match the pattern; on other strings it returns a
dummy value. -/
def isoDT (iso : String) : DT :=
  match isoMatch iso.data with
  | some (d, _) => d
  | none => ⟨0, 0, 0, 0, 0, 0, 0⟩

/-- Validity of a parsed instant as a calendar date, mirroring JavaScript's
rejection (`Invalid Date`) of ISO strings such as month 13 or February 30.
(The ES edge case of hour 24 with zero minutes is not modelled; no article
name exercises it.) -/
def isValidDT (d : DT) : Bool :=
  1 ≤ d.month && d.month ≤ 12 && 1 ≤ d.day && d.day ≤ daysInMonth d.year d.month &&
  d.hour < 24 && d.minute < 60 && d.second < 60 && d.ms < 1000

/-- Source function `extractArticleNameFromFilename` (`deploy.sh` lines 525-532): the text
after the instant and its following dash, the whole filename when the
pattern does not match. -/
def extractArticleNameFromFilename (filename : String) : String :=
  match isoMatch filename.data with
  | some (_, '-' :: c :: rest) => ⟨c :: rest⟩
  | _ => filename

/-- The global dash-to-space replace of the humanization step: every dash
becomes a space. -/
def dashToSpace (s : String) : String :=
  ⟨s.data.map (fun c => if c = '-' then ' ' else c)⟩

/-- Helper of `capWords`: the flag records whether the previous character was
a word character (so the current one is at a word boundary when it is not). -/
def capWordsAux : Bool → List Char → List Char
  | _, [] => []
  | prevW, c :: r =>
    (if isWordChar c && !prevW then c.toUpper else c) :: capWordsAux (isWordChar c) r

/-- The step `replace` of every word-boundary word character with its uppercase: uppercase each word character
that starts a word. -/
def capWords (s : String) : String := ⟨capWordsAux false s.data⟩

/-- The fixed card description of every index-view article. -/
def articleDescription : String :=
  "Click to read this markdown article with various formatting and content examples."

/-- The article descriptor built for one index-view card
(`deploy.sh` lines 481-488). -/
structure ArticleInfo where
  name : String
  displayName : String
  description : String
  published : String
  isoDateTime : String
  url : String
deriving DecidableEq, Repr

/-- Builds the descriptor pushed onto `availableArticles` for a registry
entry whose instant parsed and passed the cutoff test. -/
def mkArticleInfo (article iso : String) : ArticleInfo :=
  { name := article
  , displayName := capWords (dashToSpace (extractArticleNameFromFilename article))
  , description := articleDescription
  , published := ⟨iso.data.takeWhile (· ≠ 'T')⟩
  , isoDateTime := iso
  , url := "/blog/?article=" ++ article }

/-- The fixed registry of known article filenames (`deploy.sh` lines 438-450). -/
def knownArticles : List String :=
  [ "2024-01-15T10:30:45.123Z-sample1"
  , "2024-01-10T14:22:18.456Z-sample2"
  , "2024-01-05T08:15:30.789Z-sample3"
  , "2024-01-20T16:45:30.999Z-new-article"
  , "2024-01-25T12:00:00.000Z-directory-test"
  , "2024-06-01T12:00:00.000Z-old-article"
  , "2025-10-07T08:00:00.000Z-four-days-ago"
  , "2025-10-08T10:00:00.000Z-three-days-ago"
  , "2025-10-09T12:00:00.000Z-two-days-ago"
  , "2025-10-10T14:00:00.000Z-yesterdays-article"
  , "2025-10-11T15:00:00.000Z-todays-article" ]

/-- The key the index-view sort comparator
`(a, b) => new Date(b.isoDateTime) - new Date(a.isoDateTime)` compares. -/
def articleKey (a : ArticleInfo) : Nat := dtKey (isoDT a.isoDateTime)

/-- Stable insertion into a list sorted by descending `articleKey`: an
element is placed before the first strictly older entry, so articles with
equal instants keep their registry order, as JavaScript's stable sort does. -/
def insertDesc (x : ArticleInfo) : List ArticleInfo → List ArticleInfo
  | [] => [x]
  | y :: r => if articleKey y ≤ articleKey x then x :: y :: r else y :: insertDesc x r

/-- Stable sort by descending instant, the effect of
`availableArticles.sort((a, b) => new Date(b.isoDateTime) - new Date(a.isoDateTime))`. -/
def sortByDateDesc : List ArticleInfo → List ArticleInfo
  | [] => []
  | x :: r => insertDesc x (sortByDateDesc r)

/-- The body of the `for (const article of knownArticles)` loop for one
registry entry: the entry is appended to the accumulator when its
presence-check fetch succeeds (`headOk` models
`fetch(path, { method: 'HEAD' }).ok`), its instant parses, and the instant
is a valid date at or after the cutoff; otherwise the accumulator is
unchanged (a failed entry never aborts the loop — the `catch` only logs). -/
def considerArticle (headOk : String → Bool) (cutoff : DT)
    (acc : List ArticleInfo) (article : String) : List ArticleInfo :=
  if headOk article then
    match parseIsoDateTimeFromFilename article with
    | some iso =>
      if isValidDT (isoDT iso) && dtKey cutoff ≤ dtKey (isoDT iso) then
        acc ++ [mkArticleInfo article iso]
      else acc
    | none => acc
  else acc

/-- Source function `getAvailableArticles` (`deploy.sh` lines 434-512), generalized over the
registry for the claims that vary it: entries are checked in order, the
survivors are sorted newest first and truncated to four. -/
def getAvailableArticlesFrom (registry : List String) (headOk : String → Bool)
    (now : DT) : List ArticleInfo :=
  let available := registry.foldl (considerArticle headOk (threeMonthsBefore now)) []
  (sortByDateDesc available).take 4

/-- Source function `getAvailableArticles` on the repository's fixed registry. -/
def getAvailableArticles (headOk : String → Bool) (now : DT) : List ArticleInfo :=
  getAvailableArticlesFrom knownArticles headOk now

/-! ## Blog router: article view -/

/-- The regions of the page the article view writes:
`document.querySelector('main .container')` and the `title` element, each
`none` when absent (in which case the code silently skips the write). The
values are the regions' inner content. -/
structure BlogDoc where
  mainContainer : Option String
  title : Option String
deriving DecidableEq, Repr

/-- The back-navigation link present in both the success and the failure
markup of the article view. -/
def backToBlogLink : String :=
  "<a href=\"/blog/\" class=\"back-to-blog\">← Back to Blog</a>"

/-- The opening of both article-view markups: the post container and the
navigation block holding the back link. -/
def blogPostPre1 : String :=
  "\n                <div class=\"blog-post\">\n                    <div class=\"blog-navigation\">\n                        "

/-- The success markup between the back link and the render timestamp. -/
def blogPostPre2 : String :=
  "\n                    </div>\n                    <article class=\"markdown-content\">\n                        <div class=\"article-header\">\n                            <h1 class=\"article-datetime\">"

/-- The success markup between the render timestamp and the converted body. -/
def blogPostPre3 : String :=
  "</h1>\n                        </div>\n                        "

/-- The closing of the success markup. -/
def blogPostSuf : String :=
  "\n                    </article>\n                </div>\n            "

/-- The markup `loadMarkdownFile` writes into the main content region on
success (`deploy.sh` lines 617-629), with the render timestamp and the
converted markdown body interpolated. -/
def blogPostSuccessHtml (nowIso html : String) : String :=
  blogPostPre1 ++ backToBlogLink ++ blogPostPre2 ++ nowIso ++ blogPostPre3 ++
    html ++ blogPostSuf

/-- The not-found markup between the back link and the requested filename,
holding the fixed headline. -/
def notFoundPre2 : String :=
  "\n                    </div>\n                    <div class=\"error-message\">\n                        <h1>Post Not Found</h1>\n                        <p>The blog post \""

/-- The closing of the not-found markup. -/
def notFoundSuf : String :=
  "\" could not be found.</p>\n                        <p><a href=\"/blog/\">Return to the blog</a></p>\n                    </div>\n                </div>\n            "

/-- The fixed not-found panel `loadMarkdownFile` writes on fetch failure
(`deploy.sh` lines 647-658), naming the requested file. -/
def notFoundHtml (filename : String) : String :=
  blogPostPre1 ++ backToBlogLink ++ notFoundPre2 ++ filename ++ notFoundSuf

/-- Source function `loadMarkdownFile` (`deploy.sh` lines 593-661). Here `res` is the outcome of
fetching the markdown resource named `filename` (the resolved-path prefix is
a configuration concern); on success the main region receives the converted
body wrapped in the article markup and the title is rewritten, on failure
the main region receives the not-found panel and the title is untouched.
Both branches are total: the `catch` turns the fetch error into the panel,
so no exception escapes. -/
def loadMarkdownFile (filename : String) (res : Option String)
    (markedAvailable : Bool) (markedParse : String → String) (nowIso : String)
    (doc : BlogDoc) : BlogDoc :=
  match res with
  | some md =>
    let html := markdownToHtml markedAvailable markedParse md
    let doc1 :=
      match doc.mainContainer with
      | some _ => { doc with mainContainer := some (blogPostSuccessHtml nowIso html) }
      | none => doc
    let postTitle := capWords (dashToSpace (jsReplace filename ".md" ""))
    match doc1.title with
    | some _ => { doc1 with title := some (nowIso ++ " - " ++ postTitle ++ " - My Website Blog") }
    | none => doc1
  | none =>
    match doc.mainContainer with
    | some _ => { doc with mainContainer := some (notFoundHtml filename) }
    | none => doc

/-- Source function `initBlogRouter` (`deploy.sh` lines 380-409): outside a `/blog/` path it
does nothing; on a blog path with an `article` query parameter it loads the
markdown file named by the article id plus `.md`; without the parameter it
delegates to the index view (`showMainBlogPage`, abstracted as `showMain`). -/
def initBlogRouter (currentPath : String) (queryArticle : Option String)
    (fetchMd : String → Option String) (markedAvailable : Bool)
    (markedParse : String → String) (nowIso : String)
    (showMain : BlogDoc → BlogDoc) (doc : BlogDoc) : BlogDoc :=
  if startsWithL "/blog/".data currentPath.data then
    match queryArticle with
    | some article =>
      loadMarkdownFile (article ++ ".md") (fetchMd (article ++ ".md"))
        markedAvailable markedParse nowIso doc
    | none => showMain doc
  else doc

/-! ## The template engine: DOM model

The page structure is a tree of element and text nodes. Only the attributes
the engine inspects are modelled: `class`, `id` and the three layout data
attributes. Tag names are kept lowercase (HTML tag matching is
case-insensitive; the canonical form is enough for a scanner and injector
that only ever compare whole tag names). -/

inductive Node where
  | elem (tag className idAttr : String)
      (dataTitle dataHead dataScripts : Option String) (children : List Node)
  | text (s : String)
deriving Repr

mutual

/-- Decidable equality of nodes (the `deriving` handler does not cover the
nested recursion). -/
def nodeDecEq : (a b : Node) → Decidable (a = b)
  | .text s, .text t =>
    if h : s = t then .isTrue (by rw [h]) else .isFalse (by simp [h])
  | .text _, .elem .. => .isFalse (by simp)
  | .elem .., .text _ => .isFalse (by simp)
  | .elem t1 c1 i1 a1 b1 d1 ch1, .elem t2 c2 i2 a2 b2 d2 ch2 =>
    match nodesDecEq ch1 ch2 with
    | .isTrue hch =>
      if h : t1 = t2 ∧ c1 = c2 ∧ i1 = i2 ∧ a1 = a2 ∧ b1 = b2 ∧ d1 = d2 then
        .isTrue (by
          obtain ⟨h1, h2, h3, h4, h5, h6⟩ := h
          rw [h1, h2, h3, h4, h5, h6, hch])
      else .isFalse (by
        intro he
        injection he with h1 h2 h3 h4 h5 h6 h7
        exact h ⟨h1, h2, h3, h4, h5, h6⟩)
    | .isFalse hch => .isFalse (by
        intro he
        injection he with h1 h2 h3 h4 h5 h6 h7
        exact hch h7)

/-- Decidable equality of node lists. -/
def nodesDecEq : (a b : List Node) → Decidable (a = b)
  | [], [] => .isTrue rfl
  | [], _ :: _ => .isFalse (by simp)
  | _ :: _, [] => .isFalse (by simp)
  | x :: xs, y :: ys =>
    match nodeDecEq x y, nodesDecEq xs ys with
    | .isTrue h1, .isTrue h2 => .isTrue (by rw [h1, h2])
    | .isFalse h1, _ => .isFalse (by
        intro he
        injection he with he1 he2
        exact h1 he1)
    | _, .isFalse h2 => .isFalse (by
        intro he
        injection he with he1 he2
        exact h2 he2)

end

instance : DecidableEq Node := nodeDecEq

/-- Characters allowed in a tag name by the model's HTML reader. -/
def tagChar (c : Char) : Bool := c.isAlphanum || c = '_' || c = '-'

/-- Characters allowed in an attribute name by the model's HTML reader. -/
def attrNameChar (c : Char) : Bool := c.isAlphanum || c = '_' || c = '-'

/-- Whitespace for the model's HTML reader. -/
def isSpace (c : Char) : Bool := c = ' ' || c = '\n' || c = '\t' || c = '\r'

/-- Attribute list reader: pairs until `>` (or a self-closing `/>`, flagged
true), accepting `name="value"`, single-quoted and unquoted values, and bare
attributes. Returns the attributes in order, the self-closing flag and the
characters after the `>`. Fuel-driven; the initial fuel bounds the input
length so the reader always terminates. -/
def parseAttrsAux : Nat → List Char → List (String × String) →
    (List (String × String)) × Bool × List Char
  | 0, l, acc => (acc.reverse, false, l)
  | fuel + 1, l, acc =>
    match l.dropWhile isSpace with
    | [] => (acc.reverse, false, [])
    | '>' :: r => (acc.reverse, false, r)
    | '/' :: '>' :: r => (acc.reverse, true, r)
    | c :: r =>
      if attrNameChar c then
        let nm : String := ⟨(c :: r).takeWhile attrNameChar⟩
        let r1 := (c :: r).dropWhile attrNameChar
        match r1.dropWhile isSpace with
        | '=' :: r3 =>
          match r3.dropWhile isSpace with
          | '"' :: r5 =>
            let v := r5.takeWhile (· ≠ '"')
            parseAttrsAux fuel ((r5.dropWhile (· ≠ '"')).drop 1) ((nm, ⟨v⟩) :: acc)
          | c2 :: r5 =>
            if c2 = squoteChar then
              let v := r5.takeWhile (· ≠ squoteChar)
              parseAttrsAux fuel ((r5.dropWhile (· ≠ squoteChar)).drop 1) ((nm, ⟨v⟩) :: acc)
            else
              let v := (c2 :: r5).takeWhile (fun x => !isSpace x && x ≠ '>')
              parseAttrsAux fuel ((c2 :: r5).dropWhile (fun x => !isSpace x && x ≠ '>'))
                ((nm, ⟨v⟩) :: acc)
          | [] => ((nm, "") :: acc |>.reverse, false, [])
        | r2 => parseAttrsAux fuel r2 ((nm, "") :: acc)
      else parseAttrsAux fuel r acc

/-- First value bound to attribute `nm`, as `getAttribute` reads it. -/
def lookupAttr (nm : String) : List (String × String) → Option String
  | [] => none
  | (k, v) :: r => if k = nm then some v else lookupAttr nm r

/-- Element construction from a tag name and its attribute list: a missing
`class` or `id` reads as the empty string (as `.className` / `.id` do), the
layout data attributes stay optional. -/
def mkElem (tag : String) (attrs : List (String × String)) (children : List Node) : Node :=
  Node.elem tag ((lookupAttr "class" attrs).getD "") ((lookupAttr "id" attrs).getD "")
    (lookupAttr "data-title" attrs) (lookupAttr "data-head" attrs)
    (lookupAttr "data-scripts" attrs) children

/-- Consume a closing tag `</…>` when one is next. -/
def skipCloseTag : List Char → List Char
  | '<' :: '/' :: r => (r.dropWhile (· ≠ '>')).drop 1
  | l => l

/-- The model of the browser's `innerHTML` parsing: a sequence of elements
(with optional children and matching closing tags) and text runs; a `<` that
opens no tag is text. Stops in front of a closing tag so the enclosing
element's reader can consume it. Fuel-driven as above. -/
def parseNodesAux : Nat → List Char → List Node × List Char
  | 0, l => ([], l)
  | fuel + 1, l =>
    match l with
    | [] => ([], [])
    | '<' :: '/' :: r => ([], '<' :: '/' :: r)
    | '<' :: c :: r =>
      if c.isAlpha then
        let tag : String := ⟨((c :: r).takeWhile tagChar).map Char.toLower⟩
        let r1 := (c :: r).dropWhile tagChar
        let (attrs, selfClose, r2) := parseAttrsAux (r1.length + 1) r1 []
        if selfClose then
          let (siblings, r3) := parseNodesAux fuel r2
          (mkElem tag attrs [] :: siblings, r3)
        else
          let (children, r3) := parseNodesAux fuel r2
          let r4 := skipCloseTag r3
          let (siblings, r5) := parseNodesAux fuel r4
          (mkElem tag attrs children :: siblings, r5)
      else
        let (siblings, r2) := parseNodesAux fuel (c :: r)
        (Node.text "<" :: siblings, r2)
    | c :: r =>
      let t := (c :: r).takeWhile (· ≠ '<')
      let r1 := (c :: r).dropWhile (· ≠ '<')
      let (siblings, r2) := parseNodesAux fuel r1
      (Node.text ⟨t⟩ :: siblings, r2)

/-- Parse an HTML fragment into a node list (the `innerHTML` setter). -/
def parseHTML (s : String) : List Node := (parseNodesAux (s.data.length + 1) s.data).1

/-- Attribute rendering for serialization. -/
def attrsString (cl id : String) (dt dh ds : Option String) : String :=
  (if cl = "" then "" else " class=\"" ++ cl ++ "\"") ++
  (if id = "" then "" else " id=\"" ++ id ++ "\"") ++
  (match dt with | some v => " data-title=\"" ++ v ++ "\"" | none => "") ++
  (match dh with | some v => " data-head=\"" ++ v ++ "\"" | none => "") ++
  (match ds with | some v => " data-scripts=\"" ++ v ++ "\"" | none => "")

mutual

/-- Serialization of one node (the `innerHTML` getter, for the layout
renderer's captured content). -/
def serializeNode : Node → String
  | .text s => s
  | .elem tag cl id dt dh ds ch =>
    "<" ++ tag ++ attrsString cl id dt dh ds ++ ">" ++ serializeNodes ch ++ "</" ++ tag ++ ">"

/-- Serialization of a node list. -/
def serializeNodes : List Node → String
  | [] => ""
  | n :: r => serializeNode n ++ serializeNodes r

end

/-! ## The template engine: scanner (`loadAllTemplates`) -/

mutual

/-- All full matches of the global regex `t_(\w+)` over a class string, each
stripped of its `t_` prefix (`className.match(/t_(\w+)/g)` followed by
`match.substring(2)`): at each position a literal `t_` followed by a maximal
nonempty run of word characters yields that run, and scanning resumes after
the match. -/
def tMatchesL : List Char → List String
  | 't' :: '_' :: c :: rest =>
    if isWordChar c then tMatchesGrow [c] rest
    else tMatchesL (c :: rest)
  | _ :: rest => tMatchesL rest
  | [] => []

/-- Inside a match: `acc` holds the name's word characters so far, in
reverse. The match ends at the first non-word character (which, not being a
word character, cannot be the `t` of a new match, so scanning resumes right
after it harmlessly) or at the end of the string. -/
def tMatchesGrow (acc : List Char) : List Char → List String
  | [] => [(⟨acc.reverse⟩ : String)]
  | c :: rest =>
    if isWordChar c then tMatchesGrow (c :: acc) rest
    else (⟨acc.reverse⟩ : String) :: tMatchesL rest

end

/-- The recognized custom element tags the scanner queries for
(`querySelectorAll('t_header, t_footer, t_nav, t_sidebar, t_layout')`). -/
def fixedCustomTags : List String := ["t_header", "t_footer", "t_nav", "t_sidebar", "t_layout"]

mutual

/-- Generic document-order collector: what `f` yields from each element's
tag, class and id, over the whole tree in pre-order (the order of a
`querySelectorAll` node list). -/
def collectNode {α : Type} (f : String → String → String → List α) : Node → List α
  | .text _ => []
  | .elem tag cl id _ _ _ ch => f tag cl id ++ collectList f ch

/-- Collector `collectNode` over a node list. -/
def collectList {α : Type} (f : String → String → String → List α) : List Node → List α
  | [] => []
  | n :: r => collectNode f n ++ collectList f r

end

/-- Names one element contributes to the class/id pass of the scanner: for
elements matching the prefilter `[class*="t_"], [id*="t_"]`, the regex
matches of the class string and the `t_`-prefixed id. -/
def classIdNamesOf (cl id : String) : List String :=
  if occursS "t_" cl || occursS "t_" id then
    (if cl ≠ "" then tMatchesL cl.data else []) ++
      (if startsWithL "t_".data id.data then [(⟨id.data.drop 2⟩ : String)] else [])
  else []

/-- Class/id pass over the page, in document order. -/
def classIdPassList (l : List Node) : List String :=
  collectList (fun _ cl id => classIdNamesOf cl id) l

/-- The name one element contributes to the custom-element pass: elements
whose tag is one of the five recognized `t_` tags contribute the tag minus
its prefix (the code's `startsWith('t_')` check always holds for them). -/
def customNameOf (tag : String) : List String :=
  if tag ∈ fixedCustomTags then [(⟨tag.data.drop 2⟩ : String)] else []

/-- Custom-element pass over the page, in document order. -/
def customPassList (l : List Node) : List String :=
  collectList (fun tag _ _ => customNameOf tag) l

/-- The scanner's raw name stream: the class/id pass over the whole page,
then the custom-element pass, in the order `loadAllTemplates` adds names to
its `Set`. -/
def rawScan (doc : List Node) : List String := classIdPassList doc ++ customPassList doc

/-- Adding a name to an insertion-ordered set. -/
def addName (l : List String) (n : String) : List String :=
  if n ∈ l then l else l ++ [n]

/-- Insertion-ordered deduplication, the behaviour of a JavaScript `Set`
enumerated by `Array.from`. -/
def dedupNames (l : List String) : List String := l.foldl addName []

/-- The Template Name Set of one scan pass, in iteration order. Scanning is
a pure read: it is a function of the page and builds no new page. -/
def scanNames (doc : List Node) : List String := dedupNames (rawScan doc)

/-! ## The template engine: injector (`loadTemplate`) -/

mutual

/-- Replacement of the children of every element matching the tag selector
`t` with `cs` (the effect of `element.innerHTML = content` over the static
node list `querySelectorAll` returned: nested matches are subsumed by their
replaced ancestor, so replacement stops at an outermost match). -/
def injectNode (t : String) (cs : List Node) : Node → Node
  | .text s => .text s
  | .elem tag cl id dt dh ds ch =>
    if tag = t then .elem tag cl id dt dh ds cs
    else .elem tag cl id dt dh ds (injectNodes t cs ch)

/-- Injection `injectNode` over a node list. -/
def injectNodes (t : String) (cs : List Node) : List Node → List Node
  | [] => []
  | n :: r => injectNode t cs n :: injectNodes t cs r

end

/-- The visible error placeholder written on fetch failure
(`templates.js` line 31). -/
def errorHtml (templateName : String) : String :=
  "<div class=\"template-error\">Error loading template: " ++ templateName ++ "</div>"

mutual

/-- The elements matching a tag selector, in document order (the node list
`querySelectorAll` builds before any mutation). -/
def elemsByTagNode (t : String) : Node → List Node
  | .text _ => []
  | .elem tag cl id dt dh ds ch =>
    (if tag = t then [Node.elem tag cl id dt dh ds ch] else []) ++ elemsByTagList t ch

/-- Query `elemsByTagNode` over a node list. -/
def elemsByTagList (t : String) : List Node → List Node
  | [] => []
  | n :: r => elemsByTagNode t n ++ elemsByTagList t r

end

/-- Source function `renderLayoutTemplate` (`templates.js` lines 37-61) as the rendered
document string: the element's captured inner content and data attributes
substituted into the fetched layout text. (The subsequent re-scan the source
schedules is a pipeline step, not part of the rendered text.) -/
def renderLayoutTemplate (el : Node) (templateContent : String) : String :=
  match el with
  | .elem _ _ _ dt dh ds ch => renderLayoutFor dt dh ds (serializeNodes ch) templateContent
  | .text _ => templateContent

/-- The layout branch of `loadTemplate`: each matching element's render
replaces the whole document in turn, so the last element of the static match
list wins (earlier replacements detach the later elements, whose captured
attributes and content are read from the original page). -/
def applyLayout (templateContent : String) (doc : List Node) : List Node :=
  match (elemsByTagList "t_layout" doc).getLast? with
  | some el => parseHTML (renderLayoutTemplate el templateContent)
  | none => doc

/-- Source function `loadTemplate` (`templates.js` lines 5-34) given the outcome `res` of
fetching the template resource: on success the fetched text is written into
every element matching the tag selector `t_<name>` (or, for the reserved
name, rendered as the layout); on failure those elements receive the error
placeholder instead. The `catch` makes both branches total. -/
def loadTemplate (templateName : String) (res : Option String) (doc : List Node) :
    List Node :=
  match res with
  | some content =>
    if templateName = "layout" then applyLayout content doc
    else injectNodes ("t_" ++ templateName) (parseHTML content) doc
  | none => injectNodes ("t_" ++ templateName) (parseHTML (errorHtml templateName)) doc

/-- The non-layout success branch of `loadTemplate` in the `js/templates.js`
variant (lines 16-39): when the page is not in a subdirectory the fetched
text first has every `../images/` rewritten to `images/`. -/
def loadTemplateJs (templateName : String) (res : Option String)
    (isInSubdirectory : Bool) (doc : List Node) : List Node :=
  match res with
  | some content =>
    if templateName = "layout" then applyLayout content doc
    else
      let adjusted : String :=
        if isInSubdirectory then content
        else ⟨replaceAllSub "../images/".data "images/".data content.data⟩
      injectNodes ("t_" ++ templateName) (parseHTML adjusted) doc
  | none => injectNodes ("t_" ++ templateName) (parseHTML (errorHtml templateName)) doc

/-- One run of the Scanner+Injector pipeline (`loadAllTemplates`,
`templates.js` lines 64-113): scan the page, then load every discovered
name. The source launches the per-name loads concurrently and awaits them
all; with the stable resource `fetchTemplate` the loads are modelled
sequentially in scan order. -/
def loadAllTemplates (fetchTemplate : String → Option String) (doc : List Node) :
    List Node :=
  (scanNames doc).foldl (fun d n => loadTemplate n (fetchTemplate n) d) doc

/-- The text a non-layout name's injection writes: the fetched template on
success, the error placeholder on failure. -/
def contentFor (fetchTemplate : String → Option String) (n : String) : String :=
  match fetchTemplate n with
  | some c => c
  | none => errorHtml n

/-- The (tag, class, id) triples of the page's elements, in document order. -/
def elemsList (l : List Node) : List (String × String × String) :=
  collectList (fun tag cl id => [(tag, cl, id)]) l

/-- No `t_` in one element's tag, class or id. -/
def noTElem (tag cl id : String) : Bool :=
  !occursS "t_" tag && !occursS "t_" cl && !occursS "t_" id

/-- No `t_` occurs in any element's tag, class or id anywhere in the forest:
such nodes can neither be discovered by the scanner nor matched by an
injection selector. -/
def nodesNoT (l : List Node) : Bool :=
  (elemsList l).all (fun e => noTElem e.1 e.2.1 e.2.2)

mutual

/-- Every element of tag `t` reachable without passing through such an
element already has children `cs` (so injecting `cs` at `t` changes
nothing). -/
def readyNode (t : String) (cs : List Node) : Node → Bool
  | .text _ => true
  | .elem tag _ _ _ _ _ ch =>
    if tag = t then decide (ch = cs) else readyList t cs ch

/-- Readiness `readyNode` over a node list. -/
def readyList (t : String) (cs : List Node) : List Node → Bool
  | [] => true
  | n :: r => readyNode t cs n && readyList t cs r

end

/-! ## Spec-side scanner contract (for the claim about exactness) -/

/-- Space-splitting of a class attribute into its tokens. -/
def splitSp : List Char → List (List Char)
  | [] => [[]]
  | c :: r =>
    if c = ' ' then [] :: splitSp r
    else
      match splitSp r with
      | [] => [[c]]
      | t :: ts => (c :: t) :: ts

/-- Inverse of `splitSp`: the tokens joined by single spaces (the singleton
of the empty token denotes the empty class string). -/
def joinToks : List (List Char) → List Char
  | [] => []
  | [t] => t
  | t :: ts => t ++ ' ' :: joinToks ts

/-- The name a single class token declares under the claim's class-token
convention. -/
def tokName (t : List Char) : List String :=
  if startsWithL "t_".data t then [(⟨t.drop 2⟩ : String)] else []

/-- The names one element declares under the claim's three conventions:
a `t_`-prefixed tag, `t_`-prefixed class tokens, a `t_`-prefixed id. -/
def declaredOfElem (tag cl id : String) : List String :=
  (if startsWithL "t_".data tag.data then [(⟨tag.data.drop 2⟩ : String)] else []) ++
  (splitSp cl.data).flatMap tokName ++
  (if startsWithL "t_".data id.data then [(⟨id.data.drop 2⟩ : String)] else [])

/-- Declared insertion-point names of a page, in document order. -/
def declaredList (l : List Node) : List String :=
  collectList (fun tag cl id => declaredOfElem tag cl id) l

/-- Well-formedness of one class token for the scanner-exactness claim:
either a `t_` token whose name part is a nonempty run of word characters, or
a token in which `t_` does not occur at all. -/
def tokOK (t : List Char) : Bool :=
  (startsWithL "t_".data t && decide (2 < t.length) && (t.drop 2).all isWordChar) ||
  (findSub "t_".data t).isNone

/-! ## Lemmas about JavaScript string replacement -/

/-- A `$`-free replacement string expands to itself. -/
theorem expandRepl_of_noDollar (m p s : List Char) :
    ∀ l : List Char, (∀ c ∈ l, c ≠ '$') → expandRepl m p s l = l := by
  intro l
  induction l with
  | nil => intro _; rfl
  | cons c rest ih =>
    intro h
    have hc : c ≠ '$' := h c (by simp)
    rw [expandRepl.eq_def]
    simp only [if_neg hc]
    rw [ih (fun x hx => h x (by simp [hx]))]

/-- For a `$`-free replacement, JavaScript `replace` is literal replacement
of the first occurrence. -/
theorem jsReplace_eq_firstSubst (s pat repl : String) (h : noDollar repl = true) :
    jsReplace s pat repl = firstSubst s pat repl := by
  have h' : ∀ c ∈ repl.data, c ≠ '$' := by
    simpa [noDollar, List.all_eq_true] using h
  simp only [jsReplace, firstSubst]
  cases hf : findSub pat.data s.data with
  | none => rfl
  | some i => simp [expandRepl_of_noDollar _ _ _ _ h']

/-- A pattern that does not occur leaves the string unchanged. -/
theorem jsReplace_of_not_occurs (s pat repl : String) (h : occursS pat s = false) :
    jsReplace s pat repl = s := by
  simp only [jsReplace]
  cases hf : findSub pat.data s.data with
  | none => rfl
  | some i => rw [occursS, hf] at h; simp at h

/-- C2 counterexample: layout rendering with layout text
`{{title}} {{content}}`, a `data-title` value that is itself the literal
token `{{content}}`, and inner content `C`. The title value is not left
as-is: the later content substitution consumes it, producing
`C {{content}}` instead of the claim's `{{content}} C`. -/
theorem layout_value_substituted_inside :
    renderLayoutFor (some contentTok) none none "C" (titleTok ++ " " ++ contentTok) =
      "C " ++ contentTok ∧
    renderLayoutFor (some contentTok) none none "C" (titleTok ++ " " ++ contentTok) ≠
      contentTok ++ " C" := by
  constructor
  · decide
  · decide

/-- C2 (amended): each of the four variables is substituted into at most the
first occurrence of its placeholder in the text as it stands at that
variable's turn (order title, head, content, scripts); for `$`-free values
this chain is exactly literal first-occurrence substitution, and placeholders
absent from the layout text are silently ignored (a layout with no
placeholders renders unchanged). A value containing placeholder-like text is
inserted unescaped and may be consumed by a later variable's substitution. -/
theorem layout_substitution_first_occurrence :
    (∀ dt dh ds content template,
      noDollar (attrOr dt "Page") = true → noDollar (attrOr dh "") = true →
      noDollar content = true → noDollar (attrOr ds "") = true →
      renderLayoutFor dt dh ds content template =
        firstSubst (firstSubst (firstSubst (firstSubst template titleTok (attrOr dt "Page"))
          headTok (attrOr dh "")) contentTok content) scriptsTok (attrOr ds "")) ∧
    (∀ dt dh ds content template,
      occursS titleTok template = false → occursS headTok template = false →
      occursS contentTok template = false → occursS scriptsTok template = false →
      renderLayoutFor dt dh ds content template = template) := by
  constructor
  · intro dt dh ds content template h1 h2 h3 h4
    simp only [renderLayoutFor]
    rw [jsReplace_eq_firstSubst _ _ _ h1, jsReplace_eq_firstSubst _ _ _ h2,
      jsReplace_eq_firstSubst _ _ _ h3, jsReplace_eq_firstSubst _ _ _ h4]
  · intro dt dh ds content template h1 h2 h3 h4
    simp only [renderLayoutFor]
    rw [jsReplace_of_not_occurs _ _ _ h1, jsReplace_of_not_occurs _ _ _ h2,
      jsReplace_of_not_occurs _ _ _ h3, jsReplace_of_not_occurs _ _ _ h4]

/-- Witness for the amended C2 theorem at a concrete layout and values. -/
theorem layout_substitution_first_occurrence_witness :
    renderLayoutFor (some "My Title") none none "<p>Y</p>"
        ("<title>" ++ titleTok ++ "</title><body>" ++ contentTok ++ "</body>") =
      firstSubst (firstSubst (firstSubst (firstSubst
        ("<title>" ++ titleTok ++ "</title><body>" ++ contentTok ++ "</body>")
        titleTok (attrOr (some "My Title") "Page"))
        headTok (attrOr none "")) contentTok "<p>Y</p>") scriptsTok (attrOr none "") :=
  layout_substitution_first_occurrence.1 (some "My Title") none none "<p>Y</p>"
    ("<title>" ++ titleTok ++ "</title><body>" ++ contentTok ++ "</body>")
    (by decide) (by decide) (by decide) (by decide)

/-- C9: when the external markdown converter is unavailable, the wrapper
returns the raw markdown wrapped in a preformatted block, for every input
and whatever the converter would have been; the fallback is total, so
nothing is thrown. -/
theorem markdown_fallback_preformatted :
    ∀ (markedParse : String → String) (markdown : String),
      markdownToHtml false markedParse markdown = "<pre>" ++ markdown ++ "</pre>" := by
  intro markedParse markdown
  rfl

/-- C10: a present-but-empty `data-title`, `data-head` or `data-scripts`
attribute renders exactly as an absent one — the code coalesces on
falsiness, so the empty string falls back to the declared default, and in
particular an empty `data-title` yields the title `Page`. -/
theorem layout_empty_attr_defaults :
    (∀ dh ds content template,
      renderLayoutFor (some "") dh ds content template =
        renderLayoutFor none dh ds content template) ∧
    (∀ dt ds content template,
      renderLayoutFor dt (some "") ds content template =
        renderLayoutFor dt none ds content template) ∧
    (∀ dt dh content template,
      renderLayoutFor dt dh (some "") content template =
        renderLayoutFor dt dh none content template) ∧
    attrOr (some "") "Page" = "Page" := by
  refine ⟨?_, ?_, ?_, rfl⟩ <;> intros <;> simp [renderLayoutFor, attrOr]

/-! ## Lemmas about the index view -/

/-- Membership through stable descending insertion. -/
theorem mem_insertDesc {a x : ArticleInfo} {l : List ArticleInfo} :
    a ∈ insertDesc x l ↔ a = x ∨ a ∈ l := by
  induction l with
  | nil => simp [insertDesc]
  | cons y r ih =>
    by_cases hk : articleKey y ≤ articleKey x
    · simp [insertDesc, hk]
    · simp only [insertDesc, if_neg hk, List.mem_cons, ih]
      tauto

/-- Insertion preserves the descending order. -/
theorem sorted_insertDesc {x : ArticleInfo} {l : List ArticleInfo}
    (h : l.Pairwise (fun a b => articleKey b ≤ articleKey a)) :
    (insertDesc x l).Pairwise (fun a b => articleKey b ≤ articleKey a) := by
  induction l with
  | nil => simp [insertDesc]
  | cons y r ih =>
    rw [List.pairwise_cons] at h
    obtain ⟨hy, hr⟩ := h
    by_cases hk : articleKey y ≤ articleKey x
    · simp only [insertDesc, if_pos hk]
      refine List.Pairwise.cons ?_ (List.Pairwise.cons hy hr)
      intro b hb
      rcases List.mem_cons.mp hb with rfl | hb
      · exact hk
      · exact le_trans (hy b hb) hk
    · simp only [insertDesc, if_neg hk]
      refine List.Pairwise.cons ?_ (ih hr)
      intro b hb
      rcases mem_insertDesc.mp hb with rfl | hb
      · exact le_of_not_le hk
      · exact hy b hb

/-- The index-view sort produces a list ordered by descending instant. -/
theorem sorted_sortByDateDesc (l : List ArticleInfo) :
    (sortByDateDesc l).Pairwise (fun a b => articleKey b ≤ articleKey a) := by
  induction l with
  | nil => simp [sortByDateDesc]
  | cons x r ih =>
    simp only [sortByDateDesc]
    exact sorted_insertDesc ih

/-- The index-view sort is a permutation at the level of membership. -/
theorem mem_sortByDateDesc {a : ArticleInfo} {l : List ArticleInfo} :
    a ∈ sortByDateDesc l ↔ a ∈ l := by
  induction l with
  | nil => simp [sortByDateDesc]
  | cons x r ih =>
    simp only [sortByDateDesc, mem_insertDesc, ih, List.mem_cons]

/-- What one loop step can add to the accumulator. -/
theorem mem_considerArticle {headOk : String → Bool} {cutoff : DT}
    {acc : List ArticleInfo} {article : String} {a : ArticleInfo}
    (h : a ∈ considerArticle headOk cutoff acc article) :
    a ∈ acc ∨ ∃ iso, parseIsoDateTimeFromFilename article = some iso ∧
      isValidDT (isoDT iso) = true ∧ dtKey cutoff ≤ dtKey (isoDT iso) ∧
      a = mkArticleInfo article iso := by
  unfold considerArticle at h
  split at h
  · split at h
    next iso hp =>
      split at h
      next hcond =>
        rw [Bool.and_eq_true] at hcond
        rcases List.mem_append.mp h with h1 | h2
        · exact Or.inl h1
        · refine Or.inr ⟨iso, hp, ?_, ?_, by simpa using h2⟩
          · exact hcond.1
          · exact of_decide_eq_true hcond.2
      next => exact Or.inl h
    next => exact Or.inl h
  · exact Or.inl h

/-- What the whole loop can put into the accumulator. -/
theorem mem_considerFold {headOk : String → Bool} {cutoff : DT} :
    ∀ (registry : List String) (acc : List ArticleInfo) (a : ArticleInfo),
      a ∈ registry.foldl (considerArticle headOk cutoff) acc →
      a ∈ acc ∨ ∃ article iso, parseIsoDateTimeFromFilename article = some iso ∧
        isValidDT (isoDT iso) = true ∧ dtKey cutoff ≤ dtKey (isoDT iso) ∧
        a = mkArticleInfo article iso := by
  intro registry
  induction registry with
  | nil => intro acc a ha; exact Or.inl ha
  | cons art rest ih =>
    intro acc a ha
    rw [List.foldl_cons] at ha
    rcases ih _ a ha with hacc | hex
    · rcases mem_considerArticle hacc with h1 | ⟨iso, hp, hv, hk, he⟩
      · exact Or.inl h1
      · exact Or.inr ⟨art, iso, hp, hv, hk, he⟩
    · exact Or.inr hex

/-- C4: the index view's article list is always ordered by descending parsed
instant and holds at most four entries, every entry's instant being a valid
date at or after the cutoff `now` minus three calendar months; and at the
claim's concrete scenario (all presence checks succeed, `now` equal to
2025-10-11T16:00:00.000Z) the list is exactly the four newest October
articles with `2025-10-11T15:00:00.000Z-todays-article` first. -/
theorem index_list_sorted_bounded_recent :
    (∀ (headOk : String → Bool) (now : DT),
      (getAvailableArticles headOk now).Pairwise
        (fun a b => articleKey b ≤ articleKey a) ∧
      (getAvailableArticles headOk now).length ≤ 4 ∧
      (∀ a ∈ getAvailableArticles headOk now,
        isValidDT (isoDT a.isoDateTime) = true ∧
        dtKey (threeMonthsBefore now) ≤ dtKey (isoDT a.isoDateTime))) ∧
    getAvailableArticles (fun _ => true) ⟨2025, 10, 11, 16, 0, 0, 0⟩ =
      [ ⟨"2025-10-11T15:00:00.000Z-todays-article", "Todays Article",
          articleDescription, "2025-10-11", "2025-10-11T15:00:00.000Z",
          "/blog/?article=2025-10-11T15:00:00.000Z-todays-article"⟩
      , ⟨"2025-10-10T14:00:00.000Z-yesterdays-article", "Yesterdays Article",
          articleDescription, "2025-10-10", "2025-10-10T14:00:00.000Z",
          "/blog/?article=2025-10-10T14:00:00.000Z-yesterdays-article"⟩
      , ⟨"2025-10-09T12:00:00.000Z-two-days-ago", "Two Days Ago",
          articleDescription, "2025-10-09", "2025-10-09T12:00:00.000Z",
          "/blog/?article=2025-10-09T12:00:00.000Z-two-days-ago"⟩
      , ⟨"2025-10-08T10:00:00.000Z-three-days-ago", "Three Days Ago",
          articleDescription, "2025-10-08", "2025-10-08T10:00:00.000Z",
          "/blog/?article=2025-10-08T10:00:00.000Z-three-days-ago"⟩ ] := by
  constructor
  · intro headOk now
    refine ⟨?_, ?_, ?_⟩
    · exact (sorted_sortByDateDesc _).sublist (List.take_sublist _ _)
    · exact List.length_take_le _ _
    · intro a ha
      have ha' := List.take_subset _ _ ha
      have ha'' := mem_sortByDateDesc.mp ha'
      rcases mem_considerFold _ _ _ ha'' with h0 | ⟨article, iso, _, hv, hk, he⟩
      · simp at h0
      · subst he
        simp only [mkArticleInfo] at hv hk ⊢
        exact ⟨hv, hk⟩
  · decide

/-- C7: a registry entry whose filename does not begin with the exact
instant pattern contributes nothing to the index view: the list computed
with it present is the list computed without it, whatever the other entries,
the presence checks and the scan time. -/
theorem unparsable_filename_excluded :
    ∀ (l1 l2 : List String) (bad : String) (headOk : String → Bool) (now : DT),
      parseIsoDateTimeFromFilename bad = none →
      getAvailableArticlesFrom (l1 ++ bad :: l2) headOk now =
        getAvailableArticlesFrom (l1 ++ l2) headOk now := by
  intro l1 l2 bad headOk now h
  have hstep : ∀ acc, considerArticle headOk (threeMonthsBefore now) acc bad = acc := by
    intro acc
    simp [considerArticle, h]
  unfold getAvailableArticlesFrom
  rw [List.foldl_append, List.foldl_append, List.foldl_cons, hstep]

/-! ## Substring lemmas for the article-view claims -/

/-- Predicate `startsWithL` decides the prefix relation. -/
theorem startsWithL_iff {p l : List Char} :
    startsWithL p l = true ↔ ∃ r, l = p ++ r := by
  induction p generalizing l with
  | nil => simp [startsWithL]
  | cons a p ih =>
    cases l with
    | nil => simp [startsWithL]
    | cons c t =>
      simp only [startsWithL, Bool.and_eq_true, beq_iff_eq, ih, List.cons_append,
        List.cons.injEq]
      constructor
      · rintro ⟨rfl, r, rfl⟩
        exact ⟨r, rfl, rfl⟩
      · rintro ⟨r, rfl, rfl⟩
        exact ⟨rfl, r, rfl⟩

/-- Search `findSub` finds something exactly when the pattern is an infix. -/
theorem findSub_isSome_iff_contains {p : List Char} :
    ∀ {l : List Char}, (findSub p l).isSome = true ↔ p <:+: l := by
  intro l
  induction l with
  | nil =>
    simp only [findSub]
    by_cases h : startsWithL p [] = true
    · obtain ⟨r, hr⟩ := startsWithL_iff.mp h
      obtain ⟨hp, -⟩ := List.append_eq_nil.mp hr.symm
      subst hp
      simp [h]
    · have hp : p ≠ [] := fun hp => h (by simp [hp, startsWithL])
      simp [h, hp]
  | cons c t ih =>
    simp only [findSub]
    by_cases h : startsWithL p (c :: t) = true
    · obtain ⟨r, hr⟩ := startsWithL_iff.mp h
      simp only [h, if_true, Option.isSome_some, true_iff]
      exact ⟨[], r, by simp [hr.symm]⟩
    · rw [if_neg h]
      have hmap : (Option.map (fun x => x + 1) (findSub p t)).isSome =
          (findSub p t).isSome := by
        cases findSub p t <;> rfl
      rw [hmap, ih]
      constructor
      · intro hinf
        exact List.infix_cons hinf
      · rintro ⟨x, y, hxy⟩
        cases x with
        | nil => exact absurd (startsWithL_iff.mpr ⟨y, by simpa using hxy.symm⟩) h
        | cons c' x' =>
          simp only [List.cons_append, List.cons.injEq] at hxy
          exact ⟨x', y, hxy.2⟩

/-- Occurrence `occursS` is the infix relation of the underlying character lists. -/
theorem occursS_iff_contains {m s : String} : occursS m s = true ↔ m.data <:+: s.data := by
  simp only [occursS]
  exact findSub_isSome_iff_contains

/-- Every string occurs in itself. -/
theorem occursS_self (s : String) : occursS s s = true :=
  occursS_iff_contains.mpr (List.infix_refl _)

/-- A string occurring in a factor occurs in the whole product. -/
theorem occursS_trans_factor (m f s : String) (x y : List Char)
    (h1 : occursS m f = true) (h2 : s.data = x ++ f.data ++ y) :
    occursS m s = true := by
  refine occursS_iff_contains.mpr ((occursS_iff_contains.mp h1).trans ?_)
  exact ⟨x, y, h2.symm⟩

/-- The converted markdown body occurs in the success markup. -/
theorem occursS_html_blogPost (n h : String) :
    occursS h (blogPostSuccessHtml n h) = true := by
  refine occursS_trans_factor h h _
    ((blogPostPre1 ++ backToBlogLink ++ blogPostPre2 ++ n ++ blogPostPre3).data)
    blogPostSuf.data (occursS_self h) ?_
  simp [blogPostSuccessHtml, List.append_assoc]

/-- The back-navigation link occurs in the success markup. -/
theorem occursS_backLink_blogPost (n h : String) :
    occursS backToBlogLink (blogPostSuccessHtml n h) = true := by
  refine occursS_trans_factor backToBlogLink backToBlogLink _
    blogPostPre1.data
    ((blogPostPre2 ++ n ++ blogPostPre3 ++ h ++ blogPostSuf).data)
    (occursS_self backToBlogLink) ?_
  simp [blogPostSuccessHtml, List.append_assoc]

/-- The requested filename occurs in the not-found panel. -/
theorem occursS_filename_notFound (fn : String) :
    occursS fn (notFoundHtml fn) = true := by
  refine occursS_trans_factor fn fn _
    ((blogPostPre1 ++ backToBlogLink ++ notFoundPre2).data)
    notFoundSuf.data (occursS_self fn) ?_
  simp [notFoundHtml, List.append_assoc]

set_option maxRecDepth 8192 in
/-- The fixed headline occurs in the not-found panel. -/
theorem occursS_headline_notFound (fn : String) :
    occursS "Post Not Found" (notFoundHtml fn) = true := by
  refine occursS_trans_factor "Post Not Found" notFoundPre2 _
    ((blogPostPre1 ++ backToBlogLink).data)
    ((fn ++ notFoundSuf).data) (by decide) ?_
  simp [notFoundHtml, List.append_assoc]

/-- The back-navigation link occurs in the not-found panel. -/
theorem occursS_backLink_notFound (fn : String) :
    occursS backToBlogLink (notFoundHtml fn) = true := by
  refine occursS_trans_factor backToBlogLink backToBlogLink _
    blogPostPre1.data
    ((notFoundPre2 ++ fn ++ notFoundSuf).data)
    (occursS_self backToBlogLink) ?_
  simp [notFoundHtml, List.append_assoc]

/-- Witness for C7: the dateless filename `my-article` next to a well-formed
entry changes nothing. -/
theorem unparsable_filename_excluded_witness :
    getAvailableArticlesFrom
        (["2025-10-11T15:00:00.000Z-todays-article"] ++ "my-article" :: [])
        (fun _ => true) ⟨2025, 10, 11, 16, 0, 0, 0⟩ =
      getAvailableArticlesFrom (["2025-10-11T15:00:00.000Z-todays-article"] ++ [])
        (fun _ => true) ⟨2025, 10, 11, 16, 0, 0, 0⟩ :=
  unparsable_filename_excluded ["2025-10-11T15:00:00.000Z-todays-article"] []
    "my-article" (fun _ => true) ⟨2025, 10, 11, 16, 0, 0, 0⟩ (by decide)

/-- C6: on a blog path with an `article` query parameter, the router fetches
the resource named by the article id plus `.md`; when that fetch succeeds
the main content region ends up holding the success markup, which contains
the converted markdown body and the back-navigation link; when it fails the
main content region ends up holding the fixed not-found panel, which names
the requested file, shows the fixed headline and contains the
back-navigation link. Both outcomes are values of the total embedding — the
source `catch` converts the failure into the panel, so no exception reaches
the user. -/
theorem blog_router_article_view :
    ∀ (path article nowIso : String) (fetchMd : String → Option String)
      (mAvail : Bool) (mParse : String → String) (showMain : BlogDoc → BlogDoc)
      (mainContent pageTitle : String),
      startsWithL "/blog/".data path.data = true →
      ((∀ md, fetchMd (article ++ ".md") = some md →
        (initBlogRouter path (some article) fetchMd mAvail mParse nowIso showMain
            ⟨some mainContent, some pageTitle⟩).mainContainer =
          some (blogPostSuccessHtml nowIso (markdownToHtml mAvail mParse md)) ∧
        occursS (markdownToHtml mAvail mParse md)
          (blogPostSuccessHtml nowIso (markdownToHtml mAvail mParse md)) = true ∧
        occursS backToBlogLink
          (blogPostSuccessHtml nowIso (markdownToHtml mAvail mParse md)) = true) ∧
      (fetchMd (article ++ ".md") = none →
        (initBlogRouter path (some article) fetchMd mAvail mParse nowIso showMain
            ⟨some mainContent, some pageTitle⟩).mainContainer =
          some (notFoundHtml (article ++ ".md")) ∧
        occursS (article ++ ".md") (notFoundHtml (article ++ ".md")) = true ∧
        occursS "Post Not Found" (notFoundHtml (article ++ ".md")) = true ∧
        occursS backToBlogLink (notFoundHtml (article ++ ".md")) = true)) := by
  intro path article nowIso fetchMd mAvail mParse showMain mainContent pageTitle hpath
  constructor
  · intro md hmd
    refine ⟨?_, occursS_html_blogPost _ _, occursS_backLink_blogPost _ _⟩
    simp [initBlogRouter, hpath, loadMarkdownFile, hmd]
  · intro hmd
    refine ⟨?_, occursS_filename_notFound _, occursS_headline_notFound _,
      occursS_backLink_notFound _⟩
    simp [initBlogRouter, hpath, loadMarkdownFile, hmd]

/-- Witness for C6 at the concrete path `/blog/`, article id
`todays-article` and a resource map that serves it. -/
theorem blog_router_article_view_witness :
    ((∀ md, (fun f => if f = "todays-article.md" then some "# Hi" else none)
        ("todays-article" ++ ".md") = some md →
      (initBlogRouter "/blog/" (some "todays-article")
          (fun f => if f = "todays-article.md" then some "# Hi" else none)
          false id "2025-10-11T16:00:00.000Z" id
          ⟨some "old", some "My Website Blog"⟩).mainContainer =
        some (blogPostSuccessHtml "2025-10-11T16:00:00.000Z"
          (markdownToHtml false id md)) ∧
      occursS (markdownToHtml false id md)
        (blogPostSuccessHtml "2025-10-11T16:00:00.000Z"
          (markdownToHtml false id md)) = true ∧
      occursS backToBlogLink
        (blogPostSuccessHtml "2025-10-11T16:00:00.000Z"
          (markdownToHtml false id md)) = true) ∧
    ((fun f => if f = "todays-article.md" then some "# Hi" else none)
        ("todays-article" ++ ".md") = none →
      (initBlogRouter "/blog/" (some "todays-article")
          (fun f => if f = "todays-article.md" then some "# Hi" else none)
          false id "2025-10-11T16:00:00.000Z" id
          ⟨some "old", some "My Website Blog"⟩).mainContainer =
        some (notFoundHtml ("todays-article" ++ ".md")) ∧
      occursS ("todays-article" ++ ".md")
        (notFoundHtml ("todays-article" ++ ".md")) = true ∧
      occursS "Post Not Found" (notFoundHtml ("todays-article" ++ ".md")) = true ∧
      occursS backToBlogLink (notFoundHtml ("todays-article" ++ ".md")) = true)) :=
  blog_router_article_view "/blog/" "todays-article" "2025-10-11T16:00:00.000Z"
    (fun f => if f = "todays-article.md" then some "# Hi" else none)
    false id id "old" "My Website Blog" (by decide)

/-! ## Evaluations of the injector at the claims' failing inputs -/

/-- C1 evaluation: on a page whose only insertion point is declared by the
class token `t_header`, the scanner discovers the name `header`, yet a
successful load of `header` leaves the page unchanged — the injector's
`querySelectorAll` takes `t_header` as a tag selector, so class- and
id-declared insertion points never receive the fetched content. A
tag-declared point does receive the fetched text verbatim in `templates.js`;
in the `js/templates.js` variant on a root page, the fetched text is first
rewritten (`../images/` becomes `images/`), not injected character for
character. -/
theorem template_injection_misses_class_id_points :
    scanNames [Node.elem "div" "t_header" "" none none none []] = ["header"] ∧
    loadTemplate "header" (some "X")
        [Node.elem "div" "t_header" "" none none none []] =
      [Node.elem "div" "t_header" "" none none none []] ∧
    loadTemplate "header" (some "X")
        [Node.elem "t_header" "" "" none none none []] =
      [Node.elem "t_header" "" "" none none none [Node.text "X"]] ∧
    loadTemplateJs "header" (some "../images/x") false
        [Node.elem "t_header" "" "" none none none []] =
      [Node.elem "t_header" "" "" none none none [Node.text "images/x"]] := by
  refine ⟨by decide, by decide, by decide, by decide⟩

/-- C3 evaluation: when the fetch of `header` fails, the tag-declared
insertion point receives the visible error placeholder (which names the
template), but the id-declared insertion point matching the same name keeps
its stale previous content — the failure fallback re-queries with the same
tag selector, so only tag-declared points are cleared. -/
theorem fetch_failure_placeholder_misses_id_points :
    scanNames [Node.elem "t_header" "" "" none none none [Node.text "old"],
        Node.elem "div" "" "t_header" none none none [Node.text "old"]] =
      ["header"] ∧
    loadTemplate "header" none
        [Node.elem "t_header" "" "" none none none [Node.text "old"],
         Node.elem "div" "" "t_header" none none none [Node.text "old"]] =
      [Node.elem "t_header" "" "" none none none
        [Node.elem "div" "template-error" "" none none none
          [Node.text "Error loading template: header"]],
       Node.elem "div" "" "t_header" none none none [Node.text "old"]] ∧
    occursS "header" (errorHtml "header") = true := by
  refine ⟨by decide, by decide, by decide⟩

/-! ## Lemmas about the scanner -/

mutual

/-- Membership in a node's collection, characterized by the contributing
element. -/
theorem mem_collectNode {α : Type} (f : String → String → String → List α) :
    ∀ (n : Node) (x : α), x ∈ collectNode f n ↔
      ∃ t c i, (t, c, i) ∈ collectNode (fun a b d => [(a, b, d)]) n ∧ x ∈ f t c i
  | .text s, x => by simp [collectNode]
  | .elem tag cl id dt dh ds ch, x => by
    have hch := mem_collectList f ch x
    simp only [collectNode, List.mem_append, hch, List.mem_singleton]
    constructor
    · rintro (hx | ⟨t, c, i, hm, hx⟩)
      · exact ⟨tag, cl, id, Or.inl rfl, hx⟩
      · exact ⟨t, c, i, Or.inr hm, hx⟩
    · rintro ⟨t, c, i, hm | hm, hx⟩
      · obtain ⟨rfl, rfl, rfl⟩ := Prod.mk.injEq .. ▸ hm
        exact Or.inl hx
      · exact Or.inr ⟨t, c, i, hm, hx⟩

/-- Membership in a forest's collection, characterized by the contributing
element. -/
theorem mem_collectList {α : Type} (f : String → String → String → List α) :
    ∀ (l : List Node) (x : α), x ∈ collectList f l ↔
      ∃ t c i, (t, c, i) ∈ collectList (fun a b d => [(a, b, d)]) l ∧ x ∈ f t c i
  | [], x => by simp [collectList]
  | n :: r, x => by
    have h1 := mem_collectNode f n x
    have h2 := mem_collectList f r x
    simp only [collectList, List.mem_append, h1, h2]
    constructor
    · rintro (⟨t, c, i, hm, hx⟩ | ⟨t, c, i, hm, hx⟩)
      · exact ⟨t, c, i, Or.inl hm, hx⟩
      · exact ⟨t, c, i, Or.inr hm, hx⟩
    · rintro ⟨t, c, i, hm | hm, hx⟩
      · exact Or.inl ⟨t, c, i, hm, hx⟩
      · exact Or.inr ⟨t, c, i, hm, hx⟩

end

/-- Lemma `mem_collectList` phrased through `elemsList`. -/
theorem mem_collectList_elems {α : Type} (f : String → String → String → List α)
    (l : List Node) (x : α) :
    x ∈ collectList f l ↔ ∃ t c i, (t, c, i) ∈ elemsList l ∧ x ∈ f t c i :=
  mem_collectList f l x

/-- Membership through the insertion-ordered set fold. -/
theorem mem_foldl_addName :
    ∀ (l acc : List String) (x : String), x ∈ l.foldl addName acc ↔ x ∈ acc ∨ x ∈ l := by
  intro l
  induction l with
  | nil => simp
  | cons a l ih =>
    intro acc x
    rw [List.foldl_cons, ih]
    unfold addName
    by_cases ha : a ∈ acc
    · simp only [if_pos ha, List.mem_cons]
      constructor
      · rintro (h | h)
        · exact Or.inl h
        · exact Or.inr (Or.inr h)
      · rintro (h | h | h)
        · exact Or.inl h
        · exact Or.inl (h ▸ ha)
        · exact Or.inr h
    · simp only [if_neg ha, List.mem_append, List.mem_singleton, List.mem_cons]
      tauto

/-- The insertion-ordered set fold never duplicates. -/
theorem nodup_foldl_addName :
    ∀ (l acc : List String), acc.Nodup → (l.foldl addName acc).Nodup := by
  intro l
  induction l with
  | nil => intro acc h; exact h
  | cons a l ih =>
    intro acc h
    rw [List.foldl_cons]
    apply ih
    unfold addName
    by_cases ha : a ∈ acc
    · simpa [ha] using h
    · rw [if_neg ha]
      refine List.Nodup.append h (List.nodup_singleton a) ?_
      intro x hx hxa
      rw [List.mem_singleton] at hxa
      exact ha (hxa ▸ hx)

/-- The Template Name Set holds exactly the names of the raw scan stream. -/
theorem mem_scanNames {x : String} {doc : List Node} :
    x ∈ scanNames doc ↔ x ∈ rawScan doc := by
  simp [scanNames, dedupNames, mem_foldl_addName]

/-- The Template Name Set never holds a name twice. -/
theorem nodup_scanNames (doc : List Node) : (scanNames doc).Nodup :=
  nodup_foldl_addName _ _ List.nodup_nil

/-- A character that does not open a `t_`-plus-word-character match is skipped. -/
theorem tMatchesL_cons_of_not_start {c : Char} {x : List Char}
    (h : ¬(c = 't' ∧ ∃ c2 r, x = '_' :: c2 :: r)) :
    tMatchesL (c :: x) = tMatchesL x := by
  rw [tMatchesL.eq_def]
  split
  next c2 rest heq =>
    exfalso
    injection heq with hc hx
    exact h ⟨hc, c2, rest, hx⟩
  next y rest hno heq =>
    injection heq with hc hx
    rw [hx]
  next heq => exact absurd heq (by simp)


/-- Absence of the pattern in a cons: absent at the head and in the tail. -/
theorem findSub_cons_isNone {p : List Char} {c : Char} {t : List Char}
    (h : (findSub p (c :: t)).isNone = true) :
    startsWithL p (c :: t) = false ∧ (findSub p t).isNone = true := by
  by_cases hs : startsWithL p (c :: t) = true
  · rw [findSub, if_pos hs] at h
    simp at h
  · refine ⟨by simpa using hs, ?_⟩
    rw [findSub, if_neg hs] at h
    cases hf : findSub p t
    · rfl
    · rw [hf] at h
      simp at h

/-- A pattern that is a prefix is found. -/
theorem startsWithL_isSome {p l : List Char} (h : startsWithL p l = true) :
    (findSub p l).isSome = true := by
  obtain ⟨r, rfl⟩ := startsWithL_iff.mp h
  exact findSub_isSome_iff_contains.mpr ⟨[], r, by simp⟩

/-- A token free of `t_`, followed by a space or the end, contributes no match. -/
theorem tMatchesL_skip :
    ∀ (tok rest : List Char),
      (findSub "t_".data tok).isNone = true →
      (rest = [] ∨ ∃ r2, rest = ' ' :: r2) →
      tMatchesL (tok ++ rest) = tMatchesL rest := by
  intro tok
  induction tok with
  | nil => intro rest _ _; rfl
  | cons c tok2 ih =>
    intro rest hno hrest
    obtain ⟨hs, hno2⟩ := findSub_cons_isNone hno
    rw [List.cons_append, tMatchesL_cons_of_not_start, ih _ hno2 hrest]
    rintro ⟨rfl, c2, r, hr⟩
    cases tok2 with
    | nil =>
      simp only [List.nil_append] at hr
      rcases hrest with rfl | ⟨r2, rfl⟩
      · simp at hr
      · rw [List.cons.injEq] at hr
        exact absurd hr.1 (by decide)
    | cons d tok3 =>
      rw [List.cons_append, List.cons.injEq] at hr
      rw [hr.1] at hs
      simp [startsWithL] at hs

/-- A space opens no match. -/
theorem tMatchesL_space (x : List Char) : tMatchesL (' ' :: x) = tMatchesL x := by
  rw [tMatchesL_cons_of_not_start]
  rintro ⟨h, -⟩
  exact absurd h (by decide)

/-- Growing through word characters to the end of the string closes the match. -/
theorem tMatchesGrow_word_nil :
    ∀ (w acc : List Char), (∀ x ∈ w, isWordChar x = true) →
      tMatchesGrow acc w = [(⟨acc.reverse ++ w⟩ : String)] := by
  intro w
  induction w with
  | nil => intro acc _; simp [tMatchesGrow]
  | cons a w2 ih =>
    intro acc hw
    rw [tMatchesGrow, if_pos (hw a (by simp)), ih _ (fun x hx => hw x (by simp [hx]))]
    simp

/-- Growing through word characters to a space closes the match and resumes scanning. -/
theorem tMatchesGrow_word_space :
    ∀ (w acc cont : List Char), (∀ x ∈ w, isWordChar x = true) →
      tMatchesGrow acc (w ++ ' ' :: cont) =
        (⟨acc.reverse ++ w⟩ : String) :: tMatchesL cont := by
  intro w
  induction w with
  | nil =>
    intro acc cont _
    rw [List.nil_append, tMatchesGrow, if_neg (by decide)]
    simp
  | cons a w2 ih =>
    intro acc cont hw
    rw [List.cons_append, tMatchesGrow, if_pos (hw a (by simp)),
      ih _ _ (fun x hx => hw x (by simp [hx]))]
    simp

/-- A final `t_` token of word characters yields exactly its name. -/
theorem tMatchesL_token_nil (w : List Char) (hw : w ≠ [])
    (hword : ∀ x ∈ w, isWordChar x = true) :
    tMatchesL ('t' :: '_' :: w) = [(⟨w⟩ : String)] := by
  cases w with
  | nil => exact absurd rfl hw
  | cons a w2 =>
    rw [tMatchesL, if_pos (hword a (by simp))]
    rw [tMatchesGrow_word_nil w2 [a] (fun x hx => hword x (by simp [hx]))]
    simp

/-- A `t_` token of word characters before a space yields its name and the rest's matches. -/
theorem tMatchesL_token_space (w cont : List Char) (hw : w ≠ [])
    (hword : ∀ x ∈ w, isWordChar x = true) :
    tMatchesL (('t' :: '_' :: w) ++ ' ' :: cont) =
      (⟨w⟩ : String) :: tMatchesL cont := by
  cases w with
  | nil => exact absurd rfl hw
  | cons a w2 =>
    rw [show (('t' :: '_' :: a :: w2) ++ ' ' :: cont) =
      't' :: '_' :: a :: (w2 ++ ' ' :: cont) by simp]
    rw [tMatchesL, if_pos (hword a (by simp))]
    rw [tMatchesGrow_word_space w2 [a] cont (fun x hx => hword x (by simp [hx]))]
    simp



/-- Splitting never yields an empty token list. -/
theorem splitSp_ne_nil : ∀ l : List Char, splitSp l ≠ [] := by
  intro l
  cases l with
  | nil => simp [splitSp]
  | cons c r =>
    rw [splitSp]
    by_cases hc : c = ' '
    · simp [hc]
    · rw [if_neg hc]
      cases hs : splitSp r <;> simp

/-- The first token is a prefix of the string; every other token is an infix. -/
theorem splitSp_spec :
    ∀ l : List Char, ∃ t ts, splitSp l = t :: ts ∧ t <+: l ∧ ∀ tok ∈ ts, tok <:+: l := by
  intro l
  induction l with
  | nil => exact ⟨[], [], rfl, List.nil_prefix, by simp⟩
  | cons c r ih =>
    obtain ⟨t, ts, heq, hpre, hinf⟩ := ih
    by_cases hc : c = ' '
    · refine ⟨[], t :: ts, by rw [splitSp, if_pos hc, heq], List.nil_prefix, ?_⟩
      intro tok htok
      rcases List.mem_cons.mp htok with rfl | htok
      · exact List.infix_cons hpre.isInfix
      · exact List.infix_cons (hinf tok htok)
    · refine ⟨c :: t, ts, ?_, ?_, ?_⟩
      · rw [splitSp, if_neg hc, heq]
      · obtain ⟨s, hs⟩ := hpre
        exact ⟨s, by rw [List.cons_append, hs]⟩
      · intro tok htok
        exact List.infix_cons (hinf tok htok)

/-- Every token is an infix of the class string. -/
theorem splitSp_token_contained {l tok : List Char} (h : tok ∈ splitSp l) : tok <:+: l := by
  obtain ⟨t, ts, heq, hpre, hinf⟩ := splitSp_spec l
  rw [heq] at h
  rcases List.mem_cons.mp h with rfl | h
  · exact hpre.isInfix
  · exact hinf tok h

/-- Joining undoes splitting. -/
theorem joinToks_splitSp : ∀ l : List Char, joinToks (splitSp l) = l := by
  intro l
  induction l with
  | nil => rfl
  | cons c r ih =>
    obtain ⟨t, ts, heq, -, -⟩ := splitSp_spec r
    by_cases hc : c = ' '
    · have hsp : splitSp (c :: r) = [] :: splitSp r := by rw [splitSp, if_pos hc]
      rw [hsp, heq]
      rw [heq] at ih
      show ([] : List Char) ++ ' ' :: joinToks (t :: ts) = c :: r
      rw [List.nil_append, ih, hc]
    · have hsp : splitSp (c :: r) = (c :: t) :: ts := by rw [splitSp, if_neg hc, heq]
      rw [hsp]
      rw [heq] at ih
      cases ts with
      | nil =>
        show c :: t = c :: r
        rw [show joinToks [t] = t from rfl] at ih
        rw [ih]
      | cons u ts2 =>
        show (c :: t) ++ ' ' :: joinToks (u :: ts2) = c :: r
        rw [List.cons_append]
        rw [show joinToks (t :: u :: ts2) = t ++ ' ' :: joinToks (u :: ts2) from rfl] at ih
        rw [ih]


/-- A well-formed token is a `t_` token of word characters or free of `t_`. -/
theorem tokOK_cases {t : List Char} (h : tokOK t = true) :
    (∃ w, t = 't' :: '_' :: w ∧ w ≠ [] ∧ ∀ x ∈ w, isWordChar x = true) ∨
    (findSub "t_".data t).isNone = true := by
  rw [tokOK, Bool.or_eq_true] at h
  rcases h with h | h
  · left
    rw [Bool.and_eq_true, Bool.and_eq_true] at h
    obtain ⟨⟨h1, h2⟩, h3⟩ := h
    obtain ⟨r, hr⟩ := startsWithL_iff.mp h1
    have hdata : "t_".data = ['t', '_'] := rfl
    rw [hdata] at hr
    refine ⟨r, by simpa using hr, ?_, ?_⟩
    · intro hrnil
      rw [hr, hrnil] at h2
      simp at h2
    · intro x hx
      have hx2 : x ∈ t.drop 2 := by
        rw [hr]
        simpa using hx
      exact List.all_eq_true.mp h3 x hx2
  · right
    exact h

/-- The declared name of a `t_` token is the token minus the prefix. -/
theorem tokName_token (w : List Char) : tokName ('t' :: '_' :: w) = [(⟨w⟩ : String)] := rfl

/-- A token free of `t_` declares nothing. -/
theorem tokName_eq_nil_of_noOcc {t : List Char}
    (h : (findSub "t_".data t).isNone = true) : tokName t = [] := by
  rw [tokName, if_neg]
  intro hs
  have h2 := startsWithL_isSome hs
  rw [Option.isNone_iff_eq_none] at h
  rw [h] at h2
  simp at h2

/-- Over well-formed tokens, the regex scan returns exactly the per-token declared names, in order. -/
theorem tMatchesL_flatMap :
    ∀ toks : List (List Char), (∀ tok ∈ toks, tokOK tok = true) →
      tMatchesL (joinToks toks) = toks.flatMap tokName := by
  intro toks
  induction toks with
  | nil => intro _; rfl
  | cons t rest ih =>
    intro h
    have ht := h t (by simp)
    have hrest : ∀ tok ∈ rest, tokOK tok = true := fun tok htok => h tok (by simp [htok])
    cases rest with
    | nil =>
      show tMatchesL t = tokName t ++ []
      rcases tokOK_cases ht with ⟨w, rfl, hw, hword⟩ | hno
      · rw [tMatchesL_token_nil w hw hword, tokName_token, List.append_nil]
      · have h0 := tMatchesL_skip t [] hno (Or.inl rfl)
        rw [List.append_nil] at h0
        rw [h0, tokName_eq_nil_of_noOcc hno]
        rfl
    | cons u rest2 =>
      show tMatchesL (t ++ ' ' :: joinToks (u :: rest2)) =
        tokName t ++ (u :: rest2).flatMap tokName
      rcases tokOK_cases ht with ⟨w, rfl, hw, hword⟩ | hno
      · rw [tMatchesL_token_space w _ hw hword, ih hrest, tokName_token]
        rfl
      · rw [tMatchesL_skip t _ hno (Or.inr ⟨_, rfl⟩), tMatchesL_space, ih hrest,
          tokName_eq_nil_of_noOcc hno]
        rfl



/-- Each recognized custom tag is `t_`-prefixed. -/
theorem fixedTags_startWith :
    ∀ tg ∈ fixedCustomTags, startsWithL "t_".data tg.data = true := by decide

/-- Each recognized custom tag contains `t_`. -/
theorem fixedTags_occurs :
    ∀ tg ∈ fixedCustomTags, occursS "t_" tg = true := by decide

/-- When `t_`-prefixed tags are among the recognized five, the custom pass agrees with the tag convention. -/
theorem customNameOf_eq {tag : String}
    (htag : startsWithL "t_".data tag.data = true → tag ∈ fixedCustomTags) :
    customNameOf tag =
      (if startsWithL "t_".data tag.data then [(⟨tag.data.drop 2⟩ : String)] else []) := by
  by_cases hst : startsWithL "t_".data tag.data = true
  · rw [if_pos hst, customNameOf, if_pos (htag hst)]
  · rw [if_neg hst, customNameOf, if_neg]
    intro hmem
    exact hst (fixedTags_startWith tag hmem)

/-- Over a well-formed class string, the regex scan equals the token-wise declared names. -/
theorem classFlat_eq {cl : String}
    (hcl : ∀ tok ∈ splitSp cl.data, tokOK tok = true) :
    tMatchesL cl.data = (splitSp cl.data).flatMap tokName := by
  conv_lhs => rw [← joinToks_splitSp cl.data]
  exact tMatchesL_flatMap _ hcl

/-- A class string without `t_` declares no names. -/
theorem classFlat_nil {cl : String} (hno : occursS "t_" cl = false) :
    (splitSp cl.data).flatMap tokName = [] := by
  rw [List.flatMap_eq_nil_iff]
  intro tok htok
  apply tokName_eq_nil_of_noOcc
  cases hf : findSub "t_".data tok with
  | none => rfl
  | some i =>
    exfalso
    have hinf : ("t_".data : List Char) <:+: tok :=
      findSub_isSome_iff_contains.mp (by rw [hf]; rfl)
    have hocc : occursS "t_" cl = true :=
      occursS_iff_contains.mpr (hinf.trans (splitSp_token_contained htok))
    rw [hocc] at hno
    exact Bool.noConfusion hno

/-- A string without `t_` is not `t_`-prefixed. -/
theorem notStarts_of_noOccurs {s : String} (hno : occursS "t_" s = false) :
    startsWithL "t_".data s.data = false := by
  by_cases h : startsWithL "t_".data s.data = true
  · exfalso
    have h2 := startsWithL_isSome h
    rw [occursS, h2] at hno
    exact Bool.noConfusion hno
  · simpa using h

/-- For one well-formed element, the scanner's contributions are exactly the declared names. -/
theorem elemNames_equiv {tag cl id : String}
    (htag : startsWithL "t_".data tag.data = true → tag ∈ fixedCustomTags)
    (hcl : ∀ tok ∈ splitSp cl.data, tokOK tok = true) (x : String) :
    (x ∈ classIdNamesOf cl id ∨ x ∈ customNameOf tag) ↔ x ∈ declaredOfElem tag cl id := by
  rw [declaredOfElem, customNameOf_eq htag]
  by_cases hpre : (occursS "t_" cl || occursS "t_" id) = true
  · rw [classIdNamesOf, if_pos hpre]
    have hcls : (if cl ≠ "" then tMatchesL cl.data else []) =
        (splitSp cl.data).flatMap tokName := by
      by_cases hc : cl = ""
      · subst hc
        rw [if_neg (by simp)]
        rfl
      · rw [if_pos hc, classFlat_eq hcl]
    rw [hcls]
    simp only [List.mem_append]
    tauto
  · rw [classIdNamesOf, if_neg hpre]
    rw [Bool.or_eq_true] at hpre
    have h1 : occursS "t_" cl = false := by
      cases hv : occursS "t_" cl
      · rfl
      · exact absurd (Or.inl hv) hpre
    have h2 : occursS "t_" id = false := by
      cases hv : occursS "t_" id
      · rfl
      · exact absurd (Or.inr hv) hpre
    rw [classFlat_nil h1, notStarts_of_noOccurs h2]
    simp

/-- Membership form of the scanner-exactness statement over a well-formed page. -/
theorem scanner_exact_core :
    ∀ doc : List Node,
      (∀ e ∈ elemsList doc,
        (startsWithL "t_".data e.1.data = true → e.1 ∈ fixedCustomTags) ∧
        (∀ tok ∈ splitSp e.2.1.data, tokOK tok = true)) →
      ∀ x, x ∈ scanNames doc ↔ x ∈ declaredList doc := by
  intro doc h x
  rw [mem_scanNames, rawScan, List.mem_append]
  have hA := mem_collectList_elems (fun _ cl id => classIdNamesOf cl id) doc x
  have hB := mem_collectList_elems (fun tag _ _ => customNameOf tag) doc x
  have hD := mem_collectList_elems (fun tag cl id => declaredOfElem tag cl id) doc x
  rw [← classIdPassList] at hA
  rw [← customPassList] at hB
  rw [← declaredList] at hD
  rw [hA, hB, hD]
  constructor
  · rintro (⟨t, c, i, hm, hx⟩ | ⟨t, c, i, hm, hx⟩)
    · exact ⟨t, c, i, hm, (elemNames_equiv (h _ hm).1 (h _ hm).2 x).mp (Or.inl hx)⟩
    · exact ⟨t, c, i, hm, (elemNames_equiv (h _ hm).1 (h _ hm).2 x).mp (Or.inr hx)⟩
  · rintro ⟨t, c, i, hm, hx⟩
    rcases (elemNames_equiv (h _ hm).1 (h _ hm).2 x).mpr hx with h1 | h1
    · exact Or.inl ⟨t, c, i, hm, h1⟩
    · exact Or.inr ⟨t, c, i, hm, h1⟩


/-- C5 counterexample: on the page with the single custom element `t_foo` and a `div` of class `not_useful`, the scanner's set is `{useful}` while the declared insertion-point names are `{foo}`: the custom-tag name `foo` is missed (only five fixed tags are queried) and the phantom `useful` is extracted from inside the class token `not_useful`. -/
theorem scanner_name_set_inexact :
    ("useful" ∈ scanNames
        [Node.elem "t_foo" "" "" none none none [],
         Node.elem "div" "not_useful" "" none none none []] ∧
      "useful" ∉ declaredList
        [Node.elem "t_foo" "" "" none none none [],
         Node.elem "div" "not_useful" "" none none none []]) ∧
    ("foo" ∈ declaredList
        [Node.elem "t_foo" "" "" none none none [],
         Node.elem "div" "not_useful" "" none none none []] ∧
      "foo" ∉ scanNames
        [Node.elem "t_foo" "" "" none none none [],
         Node.elem "div" "not_useful" "" none none none []]) := by
  refine ⟨⟨by decide, by decide⟩, ⟨by decide, by decide⟩⟩

/-- C5 (amended): on pages whose `t_`-prefixed custom tags are among the five recognized ones and whose class attributes are well-formed (every token either a `t_` token of word characters or free of `t_`), the scanner produces exactly the distinct declared insertion-point names, with no name counted twice, over any mixture of the three conventions; a page declaring nothing yields the empty set, and scanning is a pure function of the page. -/
theorem scanner_exact_on_wellformed_pages :
    ∀ doc : List Node,
      (∀ e ∈ elemsList doc,
        (startsWithL "t_".data e.1.data = true → e.1 ∈ fixedCustomTags) ∧
        (∀ tok ∈ splitSp e.2.1.data, tokOK tok = true)) →
      (scanNames doc).Nodup ∧ (∀ x, x ∈ scanNames doc ↔ x ∈ declaredList doc) :=
  fun doc h => ⟨nodup_scanNames doc, scanner_exact_core doc h⟩

/-- Witness for the amended C5 theorem on a page mixing all three conventions. -/
theorem scanner_exact_on_wellformed_pages_witness :
    (scanNames
        [Node.elem "t_header" "" "" none none none [],
         Node.elem "div" "t_sidebar t_nav" "" none none none [],
         Node.elem "div" "" "t_footer" none none none [Node.text "x"]]).Nodup ∧
    (∀ x, x ∈ scanNames
        [Node.elem "t_header" "" "" none none none [],
         Node.elem "div" "t_sidebar t_nav" "" none none none [],
         Node.elem "div" "" "t_footer" none none none [Node.text "x"]] ↔
      x ∈ declaredList
        [Node.elem "t_header" "" "" none none none [],
         Node.elem "div" "t_sidebar t_nav" "" none none none [],
         Node.elem "div" "" "t_footer" none none none [Node.text "x"]]) :=
  scanner_exact_on_wellformed_pages
    [Node.elem "t_header" "" "" none none none [],
     Node.elem "div" "t_sidebar t_nav" "" none none none [],
     Node.elem "div" "" "t_footer" none none none [Node.text "x"]] (by decide)

/-- Inertness splits over a cons. -/
theorem nodesNoT_cons {n : Node} {r : List Node} :
    nodesNoT (n :: r) = true ↔ nodesNoT [n] = true ∧ nodesNoT r = true := by
  simp [nodesNoT, elemsList, collectList, List.all_append]

/-- Inertness of an element: its own triple and its children. -/
theorem nodesNoT_elem {tag cl id : String} {dt dh ds : Option String} {ch : List Node} :
    nodesNoT [Node.elem tag cl id dt dh ds ch] = true ↔
      noTElem tag cl id = true ∧ nodesNoT ch = true := by
  simp [nodesNoT, elemsList, collectList, collectNode, List.all_append]

/-- Unpacking element inertness. -/
theorem noTElem_parts {tag cl id : String} (h : noTElem tag cl id = true) :
    occursS "t_" tag = false ∧ occursS "t_" cl = false ∧ occursS "t_" id = false := by
  rw [noTElem, Bool.and_eq_true, Bool.and_eq_true] at h
  obtain ⟨⟨h1, h2⟩, h3⟩ := h
  exact ⟨by simpa using h1, by simpa using h2, by simpa using h3⟩

mutual

/-- An injection whose selector contains `t_` passes through an inert node. -/
theorem injectNode_of_noT {t : String} {cs : List Node} :
    ∀ n : Node, occursS "t_" t = true → nodesNoT [n] = true → injectNode t cs n = n
  | .text s, _, _ => rfl
  | .elem tag cl id dt dh ds ch, hocc, hno => by
    obtain ⟨hel, hch⟩ := nodesNoT_elem.mp hno
    have htag : tag ≠ t := by
      intro heq
      have := (noTElem_parts hel).1
      rw [heq, hocc] at this
      exact Bool.noConfusion this
    rw [injectNode, if_neg htag, injectNodes_of_noT ch hocc hch]

/-- An injection whose selector contains `t_` passes through an inert forest. -/
theorem injectNodes_of_noT {t : String} {cs : List Node} :
    ∀ l : List Node, occursS "t_" t = true → nodesNoT l = true → injectNodes t cs l = l
  | [], _, _ => rfl
  | n :: r, hocc, hno => by
    obtain ⟨h1, h2⟩ := nodesNoT_cons.mp hno
    rw [injectNodes, injectNode_of_noT n hocc h1, injectNodes_of_noT r hocc h2]

end

mutual

/-- An inert node is ready for any `t_` selector. -/
theorem readyNode_of_noT {t : String} {cs : List Node} :
    ∀ n : Node, occursS "t_" t = true → nodesNoT [n] = true → readyNode t cs n = true
  | .text s, _, _ => rfl
  | .elem tag cl id dt dh ds ch, hocc, hno => by
    obtain ⟨hel, hch⟩ := nodesNoT_elem.mp hno
    have htag : tag ≠ t := by
      intro heq
      have := (noTElem_parts hel).1
      rw [heq, hocc] at this
      exact Bool.noConfusion this
    rw [readyNode, if_neg htag]
    exact readyList_of_noT ch hocc hch

/-- An inert forest is ready for any `t_` selector. -/
theorem readyList_of_noT {t : String} {cs : List Node} :
    ∀ l : List Node, occursS "t_" t = true → nodesNoT l = true → readyList t cs l = true
  | [], _, _ => rfl
  | n :: r, hocc, hno => by
    obtain ⟨h1, h2⟩ := nodesNoT_cons.mp hno
    rw [readyList, readyNode_of_noT n hocc h1, readyList_of_noT r hocc h2]
    rfl

end

mutual

/-- After injecting `cs` at `t`, a node is ready for `t` and `cs`. -/
theorem readyNode_of_inject {t : String} {cs : List Node} :
    ∀ n : Node, readyNode t cs (injectNode t cs n) = true
  | .text s => rfl
  | .elem tag cl id dt dh ds ch => by
    by_cases htag : tag = t
    · rw [injectNode, if_pos htag, readyNode, if_pos htag]
      simp
    · rw [injectNode, if_neg htag, readyNode, if_neg htag]
      exact readyList_of_inject ch

/-- After injecting `cs` at `t`, the forest is ready for `t` and `cs`. -/
theorem readyList_of_inject {t : String} {cs : List Node} :
    ∀ l : List Node, readyList t cs (injectNodes t cs l) = true
  | [] => rfl
  | n :: r => by
    rw [injectNodes, readyList, readyNode_of_inject n, readyList_of_inject r]
    rfl

end

mutual

/-- Injection into a ready node changes nothing. -/
theorem injectNode_of_ready {t : String} {cs : List Node} :
    ∀ n : Node, readyNode t cs n = true → injectNode t cs n = n
  | .text s, _ => rfl
  | .elem tag cl id dt dh ds ch, hr => by
    by_cases htag : tag = t
    · rw [readyNode, if_pos htag] at hr
      have : ch = cs := of_decide_eq_true hr
      rw [injectNode, if_pos htag, this]
    · rw [readyNode, if_neg htag] at hr
      rw [injectNode, if_neg htag, injectNodes_of_ready ch hr]

/-- Injection into a ready forest changes nothing. -/
theorem injectNodes_of_ready {t : String} {cs : List Node} :
    ∀ l : List Node, readyList t cs l = true → injectNodes t cs l = l
  | [], _ => rfl
  | n :: r, hr => by
    rw [readyList, Bool.and_eq_true] at hr
    rw [injectNodes, injectNode_of_ready n hr.1, injectNodes_of_ready r hr.2]

end

mutual

/-- Readiness for one name survives an inert injection at a different name. -/
theorem readyNode_preserved {t t2 : String} {cs cs2 : List Node} :
    ∀ n : Node, readyNode t cs n = true → t ≠ t2 →
      occursS "t_" t = true → occursS "t_" t2 = true →
      nodesNoT cs = true → nodesNoT cs2 = true →
      readyNode t cs (injectNode t2 cs2 n) = true
  | .text s, _, _, _, _, _, _ => rfl
  | .elem tag cl id dt dh ds ch, hr, hne, ho1, ho2, hcs, hcs2 => by
    by_cases htag2 : tag = t2
    · have htag : tag ≠ t := fun heq => hne (by rw [← heq, htag2])
      rw [injectNode, if_pos htag2, readyNode, if_neg htag]
      exact readyList_of_noT cs2 ho1 hcs2
    · rw [injectNode, if_neg htag2]
      by_cases htag : tag = t
      · rw [readyNode, if_pos htag] at hr
        have hch : ch = cs := of_decide_eq_true hr
        rw [readyNode, if_pos htag, hch, injectNodes_of_noT cs ho2 hcs]
        simp
      · rw [readyNode, if_neg htag] at hr
        rw [readyNode, if_neg htag]
        exact readyList_preserved ch hr hne ho1 ho2 hcs hcs2

/-- Readiness of a forest survives an inert injection at a different name. -/
theorem readyList_preserved {t t2 : String} {cs cs2 : List Node} :
    ∀ l : List Node, readyList t cs l = true → t ≠ t2 →
      occursS "t_" t = true → occursS "t_" t2 = true →
      nodesNoT cs = true → nodesNoT cs2 = true →
      readyList t cs (injectNodes t2 cs2 l) = true
  | [], _, _, _, _, _, _ => rfl
  | n :: r, hr, hne, ho1, ho2, hcs, hcs2 => by
    rw [readyList, Bool.and_eq_true] at hr
    rw [injectNodes, readyList, readyNode_preserved n hr.1 hne ho1 ho2 hcs hcs2,
      readyList_preserved r hr.2 hne ho1 ho2 hcs hcs2]
    rfl

end


mutual

/-- An element of an injected node comes from the node or from the injected content. -/
theorem elems_injectNode {t : String} {cs : List Node} :
    ∀ (n : Node) (e : String × String × String),
      e ∈ collectNode (fun a b d => [(a, b, d)]) (injectNode t cs n) →
      e ∈ collectNode (fun a b d => [(a, b, d)]) n ∨ e ∈ elemsList cs
  | .text s, e, h => by simp [injectNode, collectNode] at h
  | .elem tag cl id dt dh ds ch, e, h => by
    by_cases htag : tag = t
    · rw [injectNode, if_pos htag] at h
      rw [collectNode, List.mem_append] at h
      rcases h with h | h
      · exact Or.inl (by rw [collectNode, List.mem_append]; exact Or.inl h)
      · exact Or.inr h
    · rw [injectNode, if_neg htag] at h
      rw [collectNode, List.mem_append] at h
      rcases h with h | h
      · exact Or.inl (by rw [collectNode, List.mem_append]; exact Or.inl h)
      · rcases elems_injectNodes ch e h with h2 | h2
        · exact Or.inl (by rw [collectNode, List.mem_append]; exact Or.inr h2)
        · exact Or.inr h2

/-- An element of an injected forest comes from the forest or from the injected content. -/
theorem elems_injectNodes {t : String} {cs : List Node} :
    ∀ (l : List Node) (e : String × String × String),
      e ∈ elemsList (injectNodes t cs l) → e ∈ elemsList l ∨ e ∈ elemsList cs
  | [], e, h => by simp [injectNodes, elemsList, collectList] at h
  | n :: r, e, h => by
    rw [injectNodes, elemsList, collectList, List.mem_append] at h
    rcases h with h | h
    · rcases elems_injectNode n e h with h2 | h2
      · exact Or.inl (by rw [elemsList, collectList, List.mem_append]; exact Or.inl h2)
      · exact Or.inr h2
    · rcases elems_injectNodes r e h with h2 | h2
      · refine Or.inl ?_
        rw [elemsList, collectList, List.mem_append]
        rw [elemsList] at h2
        exact Or.inr h2
      · exact Or.inr h2

end

/-- An element without `t_` in class or id contributes nothing to the class/id pass. -/
theorem classIdNamesOf_nil_of_noT {cl id : String}
    (h1 : occursS "t_" cl = false) (h2 : occursS "t_" id = false) :
    classIdNamesOf cl id = [] := by
  rw [classIdNamesOf, if_neg]
  rw [h1, h2]
  simp

/-- A tag without `t_` contributes nothing to the custom-element pass. -/
theorem customNameOf_nil_of_noT {tag : String} (h : occursS "t_" tag = false) :
    customNameOf tag = [] := by
  rw [customNameOf, if_neg]
  intro hmem
  have := fixedTags_occurs tag hmem
  rw [this] at h
  exact Bool.noConfusion h

/-- Injecting inert content never adds a name to the scan. -/
theorem rawScan_inject_subset {t : String} {cs : List Node} {l : List Node}
    (hcs : nodesNoT cs = true) {x : String}
    (h : x ∈ rawScan (injectNodes t cs l)) : x ∈ rawScan l := by
  have hnoT : ∀ e ∈ elemsList cs, noTElem e.1 e.2.1 e.2.2 = true := by
    rw [nodesNoT] at hcs
    exact fun e he => List.all_eq_true.mp hcs e he
  rw [rawScan, List.mem_append] at h
  rw [rawScan, List.mem_append]
  rcases h with h | h
  · rw [classIdPassList] at h
    obtain ⟨tg, c, i, hm, hx⟩ := (mem_collectList_elems _ _ _).mp h
    rcases elems_injectNodes l (tg, c, i) hm with hm2 | hm2
    · exact Or.inl ((mem_collectList_elems _ _ _).mpr ⟨tg, c, i, hm2, hx⟩)
    · exfalso
      obtain ⟨-, hc, hi⟩ := noTElem_parts (hnoT _ hm2)
      rw [classIdNamesOf_nil_of_noT hc hi] at hx
      simp at hx
  · rw [customPassList] at h
    obtain ⟨tg, c, i, hm, hx⟩ := (mem_collectList_elems _ _ _).mp h
    rcases elems_injectNodes l (tg, c, i) hm with hm2 | hm2
    · exact Or.inr ((mem_collectList_elems _ _ _).mpr ⟨tg, c, i, hm2, hx⟩)
    · exfalso
      obtain ⟨ht, -, -⟩ := noTElem_parts (hnoT _ hm2)
      rw [customNameOf_nil_of_noT ht] at hx
      simp at hx

/-- For a non-layout name, loading is injection of the fetched text or the error placeholder. -/
theorem loadTemplate_eq_inject {n : String} (hn : n ≠ "layout")
    (fetch : String → Option String) (d : List Node) :
    loadTemplate n (fetch n) d =
      injectNodes ("t_" ++ n) (parseHTML (contentFor fetch n)) d := by
  rw [contentFor]
  cases fetch n with
  | some c => rw [loadTemplate, if_neg hn]
  | none => rw [loadTemplate]

/-- Every list is a prefix of itself extended. -/
theorem startsWithL_append_self : ∀ p r : List Char, startsWithL p (p ++ r) = true := by
  intro p
  induction p with
  | nil => intro r; rfl
  | cons c p ih => intro r; simp [startsWithL, ih]

/-- The substring `t_` occurs in every tag selector the injector builds. -/
theorem occursS_tPrefix (n : String) : occursS "t_" ("t_" ++ n) = true := by
  rw [occursS, String.data_append]
  exact startsWithL_isSome (startsWithL_append_self _ _)

/-- Distinct names give distinct tag selectors. -/
theorem tPrefix_inj {a b : String} (h : "t_" ++ a = "t_" ++ b) : a = b := by
  have hd : "t_".data ++ a.data = "t_".data ++ b.data := by
    rw [← String.data_append, ← String.data_append, h]
  have h2 := List.append_cancel_left hd
  cases a with
  | mk da =>
    cases b with
    | mk db => exact congrArg String.mk h2


/-- Readiness for a name not in the remaining work list survives the rest of the pass. -/
theorem ready_fold_preserved (fetch : String → Option String) :
    ∀ (names : List String) (d : List Node) (t : String) (cs : List Node),
      occursS "t_" t = true → nodesNoT cs = true →
      (∀ m ∈ names, m ≠ "layout" ∧ t ≠ "t_" ++ m ∧
        nodesNoT (parseHTML (contentFor fetch m)) = true) →
      readyList t cs d = true →
      readyList t cs (names.foldl (fun d2 m => loadTemplate m (fetch m) d2) d) = true := by
  intro names
  induction names with
  | nil => intro d t cs _ _ _ hr; exact hr
  | cons m rest ih =>
    intro d t cs ho hcs h hr
    obtain ⟨hml, hmt, hmn⟩ := h m (by simp)
    rw [List.foldl_cons, loadTemplate_eq_inject hml]
    refine ih _ t cs ho hcs (fun m2 hm2 => h m2 (by simp [hm2])) ?_
    exact readyList_preserved d hr hmt ho (occursS_tPrefix m) hcs hmn

/-- After one pass over a nodup list of non-layout names with inert contents, every name's selector targets come out holding exactly that name's content, and the pass adds no scannable name. -/
theorem pipeline_fold_ready (fetch : String → Option String) :
    ∀ (names : List String) (d : List Node),
      names.Nodup →
      (∀ m ∈ names, m ≠ "layout" ∧ nodesNoT (parseHTML (contentFor fetch m)) = true) →
      (∀ n ∈ names, readyList ("t_" ++ n) (parseHTML (contentFor fetch n))
          (names.foldl (fun d2 m => loadTemplate m (fetch m) d2) d) = true) ∧
      (∀ x, x ∈ rawScan (names.foldl (fun d2 m => loadTemplate m (fetch m) d2) d) →
        x ∈ rawScan d) := by
  intro names
  induction names with
  | nil => intro d _ _; exact ⟨by simp, fun x h => h⟩
  | cons n rest ih =>
    intro d hnd h
    obtain ⟨hnl, hnn⟩ := h n (by simp)
    rw [List.nodup_cons] at hnd
    obtain ⟨hnr, hndr⟩ := hnd
    obtain ⟨ihready, ihsub⟩ := ih (loadTemplate n (fetch n) d) hndr
      (fun m hm => h m (by simp [hm]))
    constructor
    · intro m hm
      rcases List.mem_cons.mp hm with rfl | hm2
      · rw [List.foldl_cons, loadTemplate_eq_inject hnl]
        refine ready_fold_preserved fetch rest _ _ _ (occursS_tPrefix m) hnn ?_ ?_
        · intro m2 hm2
          obtain ⟨h1, h2⟩ := h m2 (by simp [hm2])
          refine ⟨h1, ?_, h2⟩
          intro heq
          exact hnr (tPrefix_inj heq ▸ hm2)
        · exact readyList_of_inject d
      · rw [List.foldl_cons]
        exact ihready m hm2
    · intro x hx
      rw [List.foldl_cons] at hx
      have hx2 := ihsub x hx
      rw [loadTemplate_eq_inject hnl] at hx2
      exact rawScan_inject_subset hnn hx2

/-- A pass each of whose steps fixes the document fixes the document. -/
theorem foldl_loadTemplate_fixed (fetch : String → Option String) :
    ∀ (l : List String) (d : List Node),
      (∀ m ∈ l, loadTemplate m (fetch m) d = d) →
      l.foldl (fun d2 m => loadTemplate m (fetch m) d2) d = d := by
  intro l
  induction l with
  | nil => intro d _; rfl
  | cons m rest ih =>
    intro d h
    rw [List.foldl_cons, h m (by simp)]
    exact ih d (fun m2 hm2 => h m2 (by simp [hm2]))

/-- C8 (amended): running the Scanner+Injector pipeline twice on a page with no layout insertion point, with every template resource stable, produces the same final page as running it once, provided every fetched content (or error placeholder) parses to markup that declares no insertion point (no `t_` in any tag, class or id). Without that proviso a second pass can discover insertion points created by the first pass's injections and fill them, as the counterexample shows. -/
theorem pipeline_idempotent_on_inert_templates :
    ∀ (fetch : String → Option String) (doc : List Node),
      "layout" ∉ scanNames doc →
      (∀ n ∈ scanNames doc, nodesNoT (parseHTML (contentFor fetch n)) = true) →
      loadAllTemplates fetch (loadAllTemplates fetch doc) = loadAllTemplates fetch doc := by
  intro fetch doc hlay hnoT
  have hvals : ∀ m ∈ scanNames doc,
      m ≠ "layout" ∧ nodesNoT (parseHTML (contentFor fetch m)) = true :=
    fun m hm => ⟨fun heq => hlay (heq ▸ hm), hnoT m hm⟩
  obtain ⟨hready, hsub⟩ :=
    pipeline_fold_ready fetch (scanNames doc) doc (nodup_scanNames doc) hvals
  rw [loadAllTemplates]
  apply foldl_loadTemplate_fixed
  intro m hm
  have hmem : m ∈ scanNames doc :=
    mem_scanNames.mpr (hsub m (mem_scanNames.mp hm))
  rw [loadTemplate_eq_inject (hvals m hmem).1]
  exact injectNodes_of_ready _ (hready m hmem)

/-- C8 counterexample: with the template `header` fetching `<t_footer></t_footer>` and `footer` fetching `F` (both stable), one pipeline run leaves the nested `t_footer` empty, while a second run discovers and fills it, so running twice differs from running once even though the page has no layout insertion point. -/
theorem pipeline_twice_differs :
    loadAllTemplates
        (fun n => if n = "header" then some "<t_footer></t_footer>"
          else if n = "footer" then some "F" else none)
        (loadAllTemplates
          (fun n => if n = "header" then some "<t_footer></t_footer>"
            else if n = "footer" then some "F" else none)
          [Node.elem "t_header" "" "" none none none []]) ≠
      loadAllTemplates
        (fun n => if n = "header" then some "<t_footer></t_footer>"
          else if n = "footer" then some "F" else none)
        [Node.elem "t_header" "" "" none none none []] := by
  decide

/-- Witness for the amended C8 theorem with a single inert template. -/
theorem pipeline_idempotent_on_inert_templates_witness :
    loadAllTemplates (fun n => if n = "header" then some "<p>hi</p>" else none)
        (loadAllTemplates (fun n => if n = "header" then some "<p>hi</p>" else none)
          [Node.elem "t_header" "" "" none none none []]) =
      loadAllTemplates (fun n => if n = "header" then some "<p>hi</p>" else none)
        [Node.elem "t_header" "" "" none none none []] :=
  pipeline_idempotent_on_inert_templates
    (fun n => if n = "header" then some "<p>hi</p>" else none)
    [Node.elem "t_header" "" "" none none none []] (by decide) (by decide)

end TW
